import Mathlib

/-!
# The def query index of srclib (`store/def_query_index.go`)

A shallow embedding of `defQueryIndex`: its build (`Build`), its query path
(`getByQuery`, `Defs`) and its persistence (`Write`, `Read`), followed by the
properties proved about them.

Modelling conventions.

* A Go `string` is the list of its code points (`GoString`); `[]rune(s)` is
  then the identity. Go compares strings byte-wise, which on well-formed
  UTF-8 is the lexicographic order of the code point lists.
* A Go `error` is `Option Error`, `none` being `nil`; a pointer that may be
  `nil` is an `Option`.
* A function that can panic returns an `Outcome`.
* The byte offset list returned by a query is an `Option byteOffsets`,
  `none` being the `nil` slice.
* Logging (`vlog`) and the global call counter are left out: they do not
  touch the index.
* The packages the file imports (`strings`, `sort`, `mafsa`, `binary`) are not
  part of the repository; their functions are the fields of `Lib`, and what
  is assumed about them is stated in the named contracts below.
-/

namespace store

/-- A Go string, as the list of its code points. -/
abbrev GoString := List Char

/-- The Go type `byteOffsets`, a slice of `int64`. -/
abbrev byteOffsets := List Int

/-- A Go error value. -/
abbrev Error := String

/-- The result of a call that may panic. -/
inductive Outcome (α : Type) where
  | ret (a : α)
  | panic (msg : String)
deriving DecidableEq, Repr

/-- The part of `graph.Def` the index reads: the name; the other attributes
are kept as uninterpreted data, which the selection predicate may inspect. -/
structure Def where
  Name : GoString
  Attrs : List Nat
deriving DecidableEq, Repr

/-- The Go struct `defLowerNameAndOffset`. -/
structure defLowerNameAndOffset where
  lowerName : GoString
  ofs : Int
deriving DecidableEq, Repr

/-- The method `defsByLowerName.Less`, on two elements. -/
def Less (a b : defLowerNameAndOffset) : Bool := decide (a.lowerName < b.lowerName)

/-- The two fields of `mafsa.MinTreeNode` that `getByQuery` reads. -/
structure MinTreeNode where
  Final : Bool
  Number : Int
deriving DecidableEq, Repr

/-- What `binary.Unmarshal(b, &mt)` leaves behind: the exported fields of the
record it filled in, the capacity of the `Values` slice, and its error. -/
structure Unmarshalled where
  B : List Nat
  Values : List byteOffsets
  cap : Nat
  err : Option Error
deriving DecidableEq, Repr

/-- The functions of the imported packages that the index calls.
`Tree` is `mafsa.MinTree`, `Builder` is `mafsa.BuildTree`. -/
structure Lib where
  Tree : Type
  Builder : Type
  /-- The function `strings.ToLower`. -/
  ToLower : GoString → GoString
  /-- The call `sort.Sort(defsByLowerName(dofs))`. -/
  sortDefs : List defLowerNameAndOffset → List defLowerNameAndOffset
  /-- The call `mafsa.New()`. -/
  New : Builder
  /-- The call `bt.Insert(name)`, its error result dropped as `Build` drops it. -/
  Insert : Builder → GoString → Builder
  /-- The call `bt.Finish()`. -/
  Finish : Builder → Builder
  /-- The call `bt.MarshalBinary()`. -/
  MarshalBinary : Builder → Except Error (List Nat)
  /-- The call `new(mafsa.Decoder).Decode(b)`: the tree and the error it returns. -/
  Decode : List Nat → Option Tree × Option Error
  /-- The call `t.IndexedTraverse(word)` on a possibly nil `t`. -/
  IndexedTraverse : Option Tree → List Char → Outcome (Option MinTreeNode × Int)
  /-- The call `binary.Marshal(mt)`; the record has the exported fields `B`, `Values`. -/
  Marshal : List Nat → List byteOffsets → Except Error (List Nat)
  /-- The call `binary.Unmarshal(b, &mt)`. -/
  Unmarshal : List Nat → Unmarshalled

/-- The Go struct `mafsaTable`. `cap` is the capacity of the slice `Values`;
the slots between its length and its capacity hold nil lists. -/
structure mafsaTable (T : Type) where
  t : Option T
  B : List Nat
  Values : List byteOffsets
  cap : Nat

/-- The Go struct `defQueryIndex`. `f.SelectDef` is the function `f`. -/
structure defQueryIndex (T : Type) where
  mt : Option (mafsaTable T)
  f : Def → Bool
  ready : Bool

/-- A `DefFilter` handed to `Defs`: one that implements `ByDefQueryFilter`,
with the string its `ByDefQuery()` returns, or any other filter. -/
inductive DefFilter where
  | byDefQuery (q : GoString)
  | other (tag : Nat)
deriving DecidableEq, Repr

/-- The method `Ready`. -/
def Ready {T : Type} (x : defQueryIndex T) : Bool := x.ready

/-- The slice expression `Values[lo : hi]`: it panics (`none`) unless
`0 ≤ lo ≤ hi ≤ cap`; slots past the length hold nil lists. -/
def sliceValues {T : Type} (mt : mafsaTable T) (lo hi : Int) : Option (List byteOffsets) :=
  if 0 ≤ lo ∧ lo ≤ hi ∧ hi ≤ (max mt.cap mt.Values.length : Nat) then
    some (((mt.Values ++ List.replicate (mt.cap - mt.Values.length) []).take hi.toNat).drop
      lo.toNat)
  else none

/-- The statement `ofs = append(ofs, ofs0...)`: appending nothing to the nil
slice leaves it nil. -/
def appendOfs (ofs : Option byteOffsets) (ofs0 : byteOffsets) : Option byteOffsets :=
  match ofs with
  | none => if ofs0 = [] then none else some ofs0
  | some l => some (l ++ ofs0)

/-- The method `getByQuery`. -/
def getByQuery (L : Lib) (x : defQueryIndex L.Tree) (q : GoString) :
    Outcome (Option byteOffsets × Bool) :=
  match x.mt with
  | none => .panic "mafsaTable not built/read"
  | some mt =>
    match L.IndexedTraverse mt.t (L.ToLower q) with
    | .panic msg => .panic msg
    | .ret (none, _) => .ret (none, false)
    | .ret (some node, i) =>
      let nn := node.Number
      let i' := if node.Final then i - 1 else i
      let nn' := if node.Final then nn + 1 else nn
      match sliceValues mt i' (i' + nn') with
      | none => .panic "slice bounds out of range"
      | some vs => .ret (vs.foldl appendOfs none, true)

/-- The method `Defs`. -/
def Defs (L : Lib) (x : defQueryIndex L.Tree) :
    List DefFilter → Outcome (Option byteOffsets × Option Error)
  | [] => .ret (none, none)
  | .byDefQuery q :: _ =>
    match getByQuery L x q with
    | .panic msg => .panic msg
    | .ret (ofs, found) => if !found then .ret (none, none) else .ret (ofs, none)
  | .other _ :: rest => Defs L x rest

/-- The first loop of `Build`: the selected defs, lower-cased, each with
`ofs[i]`; `none` when `ofs[i]` is out of range for a selected def. -/
def selectDefs (L : Lib) (f : Def → Bool) :
    List Def → byteOffsets → Option (List defLowerNameAndOffset)
  | [], _ => some []
  | d :: ds, os =>
    if f d then
      match os with
      | [] => none
      | o :: os' => (selectDefs L f ds os').map (fun r => ⟨L.ToLower d.Name, o⟩ :: r)
    else selectDefs L f ds os.tail

/-- The variables the second loop of `Build` updates: the automaton builder,
the value table and `j`. -/
structure LoopState (β : Type) where
  bt : β
  Values : List byteOffsets
  j : Nat

/-- The assignment `Values[len(Values)-1] = append(Values[len(Values)-1], o)`;
`none` when `Values` is empty (index out of range). -/
def appendToLast : List byteOffsets → Int → Option (List byteOffsets)
  | [], _ => none
  | [v], o => some [v ++ [o]]
  | v :: w :: vs, o => (appendToLast (w :: vs) o).map (fun r => v :: r)

/-- The second loop of `Build`, from index `i` on, over the rest of `dofs`;
`ins` is the automaton's `Insert`. `none` stands for an index-out-of-range
panic. -/
def buildLoop {β : Type} (ins : β → GoString → β) (dofs : List defLowerNameAndOffset) :
    Nat → List defLowerNameAndOffset → LoopState β → Option (LoopState β)
  | _, [], s => some s
  | i, d :: rest, s =>
    let same : Option Bool :=
      if 0 < i then (dofs.get? s.j).map (fun e => decide (e.lowerName = d.lowerName))
      else some false
    match same with
    | none => none
    | some true =>
      match appendToLast s.Values d.ofs with
      | none => none
      | some vs => buildLoop ins dofs (i + 1) rest { s with Values := vs }
    | some false =>
      buildLoop ins dofs (i + 1) rest
        { bt := ins s.bt d.lowerName, Values := s.Values ++ [[d.ofs]], j := i }

/-- The method `Build`: the index afterwards and the error it returns. -/
def Build (L : Lib) (x : defQueryIndex L.Tree) (defs : List Def) (ofs : byteOffsets) :
    defQueryIndex L.Tree × Outcome (Option Error) :=
  match selectDefs L x.f defs ofs with
  | none => (x, .panic "index out of range")
  | some dofs =>
    if dofs.length = 0 then
      ({ x with mt := some ⟨none, [], [], 0⟩, ready := true }, .ret none)
    else
      let sorted := L.sortDefs dofs
      match buildLoop L.Insert sorted 0 sorted ⟨L.New, [], 0⟩ with
      | none => ({ x with mt := some ⟨none, [], [], dofs.length⟩ }, .panic "index out of range")
      | some s =>
        let bt := L.Finish s.bt
        match L.MarshalBinary bt with
        | .error e => ({ x with mt := some ⟨none, [], s.Values, dofs.length⟩ }, .ret (some e))
        | .ok b =>
          match L.Decode b with
          | (t, some e) => ({ x with mt := some ⟨t, b, s.Values, dofs.length⟩ }, .ret (some e))
          | (t, none) =>
            ({ x with mt := some ⟨t, b, s.Values, dofs.length⟩, ready := true }, .ret none)

/-- The names `Build` passes to the automaton's `Insert`, in call order: the
two loops of `Build` run with a builder that records each inserted name. -/
def insertedNames (L : Lib) (f : Def → Bool) (defs : List Def) (ofs : byteOffsets) :
    List GoString :=
  match selectDefs L f defs ofs with
  | none => []
  | some dofs =>
    if dofs.length = 0 then []
    else
      match buildLoop (fun (log : List GoString) s => log ++ [s]) (L.sortDefs dofs) 0 (L.sortDefs dofs)
          ⟨[], [], 0⟩ with
      | none => []
      | some s => s.bt

/-- The method `Write`. `w` is the error the sink returns for the bytes
handed to `w.Write`; the result holds those bytes and the returned error. -/
def Write (L : Lib) (x : defQueryIndex L.Tree) (w : List Nat → Option Error) :
    Outcome (Option (List Nat) × Option Error) :=
  match x.mt with
  | none => .panic "no mafsaTable to write"
  | some mt =>
    match L.Marshal mt.B mt.Values with
    | .error e => .ret (none, some e)
    | .ok b => .ret (some b, w b)

/-- The method `Read`. `r` is what `ioutil.ReadAll(r)` returns: the bytes
and the error. The result is the index afterwards and the returned error. -/
def Read (L : Lib) (x : defQueryIndex L.Tree) (r : List Nat × Option Error) :
    defQueryIndex L.Tree × Option Error :=
  match r.2 with
  | some e => (x, some e)
  | none =>
    let u := L.Unmarshal r.1
    let mt : mafsaTable L.Tree := ⟨none, u.B, u.Values, u.cap⟩
    if u.err = none ∧ 0 < u.B.length then
      let d := L.Decode u.B
      ({ x with mt := some { mt with t := d.1 }, ready := decide (d.2 = none) }, d.2)
    else
      ({ x with mt := some mt, ready := decide (u.err = none) }, u.err)

/-! ## What is assumed of the imported packages -/

/-- Modelled from the spec: `sort.Sort` (package `sort`, not under the
repository) leaves a rearrangement of its argument in ascending order of
`Less` ("order projected entries by lower-cased name, ascending"); nothing is
assumed about the order of entries with equal names. -/
def SortSpec (L : Lib) : Prop :=
  ∀ l, (L.sortDefs l).Perm l ∧ (L.sortDefs l).Pairwise (fun a b => Less b a = false)

/-- Modelled from the spec: the node and rank a traversal along `w` ends in,
for an automaton that accepts exactly `keys` (package `mafsa`, not under the
repository). No node when no key starts with `w`. Otherwise the node is
final when `w` is a key, its number counts the keys that extend `w` properly
("the count of accepting strings in its subtree"), and the rank counts the
keys in front of them: those below `w`, and `w` itself when it is a key ("an
exact match's own value slot sits immediately before its first descendant's
slot in rank order"). -/
def rankedTraverse (keys : List GoString) (w : List Char) : Option MinTreeNode × Int :=
  if keys.any (fun k => w.isPrefixOf k) then
    (some ⟨decide (w ∈ keys),
        ((keys.filter (fun k => w.isPrefixOf k && decide (k ≠ w))).length : Int)⟩,
      ((keys.filter (fun k => decide (k < w))).length : Int) + (if w ∈ keys then 1 else 0))
  else (none, -1)

/-- Modelled from the spec: the automaton built by inserting a non-empty,
strictly ascending list of keys, finished, encoded and decoded without error,
is traversed as `rankedTraverse` says. -/
def TraverseSpec (L : Lib) : Prop :=
  ∀ (keys : List GoString) (b : List Nat) (t : Option L.Tree),
    keys ≠ [] → keys.Pairwise (· < ·) →
    L.MarshalBinary (L.Finish (keys.foldl L.Insert L.New)) = .ok b →
    L.Decode b = (t, none) →
    ∀ w, L.IndexedTraverse t w = .ret (rankedTraverse keys w)

/-- Modelled from the spec: a traversal of the automaton of an empty index,
whose tree pointer is nil, finds no node ("a valid, empty, query-ready
index"; "any query returns not-found"). -/
def NilTraverseSpec (L : Lib) : Prop :=
  ∀ w, L.IndexedTraverse none w = .ret (none, -1)

/-- Modelled from the spec: the encoded automaton is never the empty byte
string (the blob "round-trips exactly", and `Read` decodes it only when it is
not empty). -/
def EncodeSpec (L : Lib) : Prop :=
  ∀ bt b, L.MarshalBinary bt = .ok b → b ≠ []

/-- Modelled from the spec: `binary.Unmarshal` restores the record that
`binary.Marshal` encoded (package `binary`, not under the repository; "exact
byte layout is an internal contract between `Write` and `Read`"). -/
def RecordSpec (L : Lib) : Prop :=
  ∀ B V b, L.Marshal B V = .ok b →
    (L.Unmarshal b).B = B ∧ (L.Unmarshal b).Values = V ∧ (L.Unmarshal b).err = none

/-! ## The runs of equal names in the sorted entries -/

/-- One more entry for the runs collected so far, the latest run first: it
joins the latest run when it has that run's name, and opens a run
otherwise. -/
def pushRun : List (GoString × byteOffsets) → defLowerNameAndOffset →
    List (GoString × byteOffsets)
  | [], d => [(d.lowerName, [d.ofs])]
  | (n, os) :: gs, d =>
    if n = d.lowerName then (n, os ++ [d.ofs]) :: gs
    else (d.lowerName, [d.ofs]) :: (n, os) :: gs

/-- The runs of equal names of a list of entries, in order: each name with
the offsets of its run. -/
def runs (l : List defLowerNameAndOffset) : List (GoString × byteOffsets) :=
  (l.foldl pushRun []).reverse

/-- The entries a run stands for. -/
def expandRun (g : GoString × byteOffsets) : List defLowerNameAndOffset :=
  g.2.map (fun o => ⟨g.1, o⟩)

/-- The selected defs with their offsets, for aligned lists: what the first
loop of `Build` collects. -/
def selected (L : Lib) (f : Def → Bool) (defs : List Def) (ofs : byteOffsets) :
    List defLowerNameAndOffset :=
  ((defs.zip ofs).filter (fun p => f p.1)).map (fun p => ⟨L.ToLower p.1.Name, p.2⟩)

/-- The nil slice for the empty list. -/
def toSlice (l : byteOffsets) : Option byteOffsets := if l = [] then none else some l

/-! ## A reference library

A small executable stand-in for the imported packages. It shows that the
contracts above can be met together, and it lets the index be run on
examples. Its byte strings are lists of naturals. -/

/-- Lower-casing of the ASCII letters. -/
def refToLower (s : GoString) : GoString := s.map Char.toLower

/-- Insertion sort by lower-cased name. -/
def refSort (l : List defLowerNameAndOffset) : List defLowerNameAndOffset :=
  l.insertionSort (fun a b => a.lowerName ≤ b.lowerName)

/-- The keys of an automaton as bytes: each key as its length and its code
points. -/
def encodeKeys : List GoString → List Nat
  | [] => []
  | k :: ks => k.length :: (k.map Char.toNat ++ encodeKeys ks)

/-- The keys read back from their bytes, in at most `fuel` steps. -/
def decodeKeysAux : Nat → List Nat → List GoString
  | 0, _ => []
  | _ + 1, [] => []
  | fuel + 1, n :: rest => (rest.take n).map Char.ofNat :: decodeKeysAux fuel (rest.drop n)

/-- The keys read back from their bytes. -/
def decodeKeys (b : List Nat) : List GoString := decodeKeysAux b.length b

/-- An integer as a natural number. -/
def zigzag (z : Int) : Nat := if 0 ≤ z then 2 * z.toNat else 2 * (-z - 1).toNat + 1

/-- The integer a natural number stands for. -/
def unzigzag (n : Nat) : Int := if n % 2 = 0 then ((n / 2 : Nat) : Int) else -((n / 2 : Nat) : Int) - 1

/-- A value table as bytes: each offset list as its length and its offsets. -/
def encodeValues : List byteOffsets → List Nat
  | [] => []
  | v :: vs => v.length :: (v.map zigzag ++ encodeValues vs)

/-- The value table read back from its bytes, in at most `fuel` steps. -/
def decodeValuesAux : Nat → List Nat → List byteOffsets
  | 0, _ => []
  | _ + 1, [] => []
  | fuel + 1, n :: rest => (rest.take n).map unzigzag :: decodeValuesAux fuel (rest.drop n)

/-- The reference library: ASCII lower-casing, insertion sort, an automaton
kept as the list of its keys and traversed as `rankedTraverse` says, and
length-prefixed encodings. -/
def refLib : Lib where
  Tree := List GoString
  Builder := List GoString
  ToLower := refToLower
  sortDefs := refSort
  New := []
  Insert := fun bt k => bt ++ [k]
  Finish := fun bt => bt
  MarshalBinary := fun bt => .ok (1 :: encodeKeys bt)
  Decode := fun b =>
    match b with
    | 1 :: rest => (some (decodeKeys rest), none)
    | _ => (none, some "mafsa: unknown format")
  IndexedTraverse := fun t w =>
    match t with
    | none => .ret (none, -1)
    | some keys => .ret (rankedTraverse keys w)
  Marshal := fun B V => .ok (B.length :: (B ++ encodeValues V))
  Unmarshal := fun b =>
    match b with
    | [] => ⟨[], [], 0, some "unexpected EOF"⟩
    | n :: rest =>
      if rest.length < n then ⟨[], [], 0, some "unexpected EOF"⟩
      else
        let V := decodeValuesAux (rest.drop n).length (rest.drop n)
        ⟨rest.take n, V, V.length, none⟩

/-- An index of the reference library that selects every def and has been
neither built nor read. -/
def refIndex : defQueryIndex refLib.Tree := ⟨none, fun _ => true, false⟩

/-- Five defs for the examples: `Foo`, `qux`, `fooBar`, `foobaz`, `FOO`. -/
def exDefs : List Def :=
  [⟨"Foo".data, []⟩, ⟨"qux".data, []⟩, ⟨"fooBar".data, []⟩, ⟨"foobaz".data, []⟩,
    ⟨"FOO".data, []⟩]

/-- The offsets of the example defs. -/
def exOfs : byteOffsets := [10, 20, 30, 40, 50]

/-- The example index: the reference index after `Build` on the example
defs. -/
def exIndex : defQueryIndex refLib.Tree := (Build refLib refIndex exDefs exOfs).1

/-- An index of the reference library that selects the defs with the
attribute list `[1]`, neither built nor read; it selects no example def. -/
def pickyIndex : defQueryIndex refLib.Tree := ⟨none, fun d => decide (d.Attrs = [1]), false⟩

/-- A sink that takes every byte string. -/
def okSink : List Nat → Option Error := fun _ => none

/-- The bytes `Write` hands to the sink for the example index. -/
def exBytes : List Nat :=
  [23, 1, 3, 102, 111, 111, 6, 102, 111, 111, 98, 97, 114, 6, 102, 111, 111, 98, 97, 122, 3,
    113, 117, 120, 2, 20, 100, 1, 60, 1, 80, 1, 40]

/-- A record whose automaton blob `[9]` does not decode, with the value
table `[[7]]`. -/
def badBlobBytes : List Nat := [1, 9, 1, 14]

/-! ## Coverage, and the state a query can touch -/

/-- The method `Covers`. `storeFilters`, declared elsewhere in package
`store`, turns the filter collection `filters` into the list of its filters;
it is taken as given. -/
def Covers {T F : Type} (storeFilters : F → List DefFilter) (_x : defQueryIndex T)
    (filters : F) : Int :=
  (storeFilters filters).foldl
    (fun cov f =>
      match f with
      | .byDefQuery _ => cov + 1
      | .other _ => cov) 0

/-- Whether a filter implements `ByDefQueryFilter`. -/
def isByDefQuery : DefFilter → Bool
  | .byDefQuery _ => true
  | .other _ => false

/-- The query string of the first filter of a list that implements
`ByDefQueryFilter`, if there is one. -/
def firstByDefQuery : List DefFilter → Option GoString
  | [] => none
  | .byDefQuery q :: _ => some q
  | .other _ :: rest => firstByDefQuery rest

/-- What a query can read or write: the index, and the package variable
`c_defQueryIndex_getByQuery` that counts the calls of `getByQuery`. -/
structure QueryState (T : Type) where
  x : defQueryIndex T
  c_defQueryIndex_getByQuery : Int

/-- The method `getByQuery` with the state it leaves: the counter is
incremented before anything else, no field of the index is assigned. -/
def getByQueryS (L : Lib) (s : QueryState L.Tree) (q : GoString) :
    QueryState L.Tree × Outcome (Option byteOffsets × Bool) :=
  ({ s with c_defQueryIndex_getByQuery := s.c_defQueryIndex_getByQuery + 1 },
    getByQuery L s.x q)

/-- The method `Defs` with the state it leaves. -/
def DefsS (L : Lib) (s : QueryState L.Tree) :
    List DefFilter → QueryState L.Tree × Outcome (Option byteOffsets × Option Error)
  | [] => (s, .ret (none, none))
  | .byDefQuery q :: _ =>
    match getByQueryS L s q with
    | (s', .panic msg) => (s', .panic msg)
    | (s', .ret (ofs, found)) => (s', if !found then .ret (none, none) else .ret (ofs, none))
  | .other _ :: rest => DefsS L s rest

/-- The reference library with an automaton encoder that always fails. -/
def encodeFailLib : Lib := { refLib with MarshalBinary := fun _ => .error "mafsa: encode failed" }

/-- An index of `encodeFailLib` that selects every def, neither built nor
read. -/
def encodeFailIndex : defQueryIndex encodeFailLib.Tree := ⟨none, fun _ => true, false⟩

/-- The reference library with a traversal that panics whenever it is
called. -/
def panicLib : Lib :=
  { refLib with IndexedTraverse := fun _ _ => .panic "invalid memory address" }

/-- An index of `panicLib`, neither built nor read. -/
def panicIndex : defQueryIndex panicLib.Tree := ⟨none, fun _ => true, false⟩

end store

/-! # The authorship rule maker (`authorship/rule.go`)

The rules of packages `plan` and `vcsutil` are kept as what the maker reads of
them: the unit and the string `Target()` returns. A Go map is the list of
its assignments, the latest first. -/

namespace authorship

/-- The type `unit.ID`, a string. -/
abbrev UnitID := List Char

/-- A `unit.SourceUnit`: the value of `ID()`, and the rest as uninterpreted
data. -/
structure SourceUnit where
  ID : UnitID
  Data : List Nat
deriving DecidableEq, Repr

/-- A `plan.GraphUnitRule`: its unit and the value of `Target()`. -/
structure GraphUnitRule where
  Unit : SourceUnit
  Target : List Char
deriving DecidableEq, Repr

/-- A `vcsutil.BlameSourceUnitRule`: its unit and the value of `Target()`. -/
structure BlameSourceUnitRule where
  Unit : SourceUnit
  Target : List Char
deriving DecidableEq, Repr

/-- A `makex.Rule` as the type switch of the maker sees it. -/
inductive Rule where
  | graph (r : GraphUnitRule)
  | blame (r : BlameSourceUnitRule)
  | other (tag : Nat)
deriving DecidableEq, Repr

/-- The part of `config.Repository` the maker reads. -/
structure Repository where
  SourceUnits : List SourceUnit
deriving DecidableEq, Repr

/-- The Go struct `ComputeUnitAuthorshipRule`. -/
structure ComputeUnitAuthorshipRule where
  dataDir : List Char
  Unit : SourceUnit
  BlameOutput : List Char
  GraphOutput : List Char
deriving DecidableEq, Repr

/-- The method `Prereqs`. -/
def Prereqs (r : ComputeUnitAuthorshipRule) : List (List Char) := [r.BlameOutput, r.GraphOutput]

/-- The two errors the maker builds with `fmt.Errorf`, each with the unit ID
it quotes. -/
inductive MakeError where
  | noSourceUnit (id : UnitID)
  | noBlameRule (id : UnitID)
deriving DecidableEq, Repr

/-- A Go map with keys of type `unit.ID`: its assignments, the latest first. -/
abbrev GoMap (α : Type) := List (UnitID × α)

/-- The assignment `m[k] = v`. -/
def mapSet {α : Type} (m : GoMap α) (k : UnitID) (v : α) : GoMap α := (k, v) :: m

/-- The lookup `m[k]`: the latest value assigned to `k`. -/
def mapGet {α : Type} : GoMap α → UnitID → Option α
  | [], _ => none
  | (k', v) :: m, k => if k' = k then some v else mapGet m k

/-- The entries of a Go map: each key once, with its latest value. -/
def mapEntries {α : Type} : GoMap α → List (UnitID × α)
  | [] => []
  | (k, v) :: m => (k, v) :: (mapEntries m).filter (fun p => decide (p.1 ≠ k))

/-- The first loop of the maker: the graph rules and the blame rules by unit
ID. -/
def collectRules (existing : List Rule) : GoMap GraphUnitRule × GoMap BlameSourceUnitRule :=
  existing.foldl
    (fun maps rule =>
      match rule with
      | .graph r => (mapSet maps.1 r.Unit.ID r, maps.2)
      | .blame r => (maps.1, mapSet maps.2 r.Unit.ID r)
      | .other _ => maps) ([], [])

/-- The inner loop of the maker: the first source unit with the given ID. -/
def findUnit (c : Repository) (unitID : UnitID) : Option SourceUnit :=
  c.SourceUnits.find? (fun u2 => decide (u2.ID = unitID))

/-- The second loop of the maker over the entries of `graphRules` still to
come, `rules` being the rules made so far. -/
def makeLoop (c : Repository) (dataDir : List Char) (blameRules : GoMap BlameSourceUnitRule) :
    List (UnitID × GraphUnitRule) → List ComputeUnitAuthorshipRule →
      Except MakeError (List ComputeUnitAuthorshipRule)
  | [], rules => .ok rules
  | (unitID, gr) :: rest, rules =>
    match findUnit c unitID with
    | none => .error (.noSourceUnit unitID)
    | some u =>
      match mapGet blameRules unitID with
      | none => .error (.noBlameRule u.ID)
      | some br =>
        makeLoop c dataDir blameRules rest
          (rules ++ [⟨dataDir, u, br.Target, gr.Target⟩])

/-- The function `makeAuthorshipRules`. Go leaves the order in which `range`
yields the entries of a map open; `order` is the list of the entries of
`graphRules` in the order of this call. -/
def makeAuthorshipRules (c : Repository) (dataDir : List Char) (existing : List Rule)
    (order : List (UnitID × GraphUnitRule)) :
    Except MakeError (List ComputeUnitAuthorshipRule) :=
  makeLoop c dataDir (collectRules existing).2 order []

/-- An order `range` may yield the entries of `graphRules` in: any
rearrangement of them. -/
def RangeOrder (existing : List Rule) (order : List (UnitID × GraphUnitRule)) : Prop :=
  order.Perm (mapEntries (collectRules existing).1)

/-- The unit IDs of the graph rules of a rule list. -/
def graphIDs : List Rule → List UnitID
  | [] => []
  | .graph r :: rest => r.Unit.ID :: graphIDs rest
  | _ :: rest => graphIDs rest

/-- Two example units. -/
def exUnits : List SourceUnit := [⟨"a".data, []⟩, ⟨"b".data, []⟩]

/-- Example rules: a graph rule for each unit, one of them given twice, a
blame rule for each unit, and a rule of another kind. -/
def exRules : List Rule :=
  [.graph ⟨⟨"a".data, []⟩, "a.graph0".data⟩, .blame ⟨⟨"b".data, []⟩, "b.blame".data⟩,
    .other 7, .graph ⟨⟨"b".data, []⟩, "b.graph".data⟩,
    .graph ⟨⟨"a".data, []⟩, "a.graph".data⟩, .blame ⟨⟨"a".data, []⟩, "a.blame".data⟩]

end authorship

namespace store

/-! ## The loops of `Build` -/

theorem selectDefs_aligned (L : Lib) (f : Def → Bool) :
    ∀ (defs : List Def) (ofs : byteOffsets), defs.length = ofs.length →
      selectDefs L f defs ofs = some (selected L f defs ofs)
  | [], _, _ => by simp [selectDefs, selected]
  | d :: ds, [], h => by simp at h
  | d :: ds, o :: os, h => by
    have ih := selectDefs_aligned L f ds os (by simpa using h)
    by_cases hd : f d = true
    · simp [selectDefs, hd, ih, selected, List.filter_cons]
    · simp only [Bool.not_eq_true] at hd
      simp [selectDefs, hd, ih, selected, List.filter_cons]

theorem selectDefs_none_selected (L : Lib) (f : Def → Bool) :
    ∀ (defs : List Def) (ofs : byteOffsets), (∀ d ∈ defs, f d = false) →
      selectDefs L f defs ofs = some []
  | [], _, _ => by simp [selectDefs]
  | d :: ds, os, h => by
    have hd : f d = false := h d (by simp)
    have ih := selectDefs_none_selected L f ds os.tail (fun e he => h e (by simp [he]))
    simp [selectDefs, hd, ih]

theorem appendToLast_append (vs : List byteOffsets) (v : byteOffsets) (o : Int) :
    appendToLast (vs ++ [v]) o = some (vs ++ [v ++ [o]]) := by
  induction vs with
  | nil => simp [appendToLast]
  | cons a vs ih =>
    cases vs with
    | nil => simp [appendToLast]
    | cons b vs => simpa [appendToLast] using ih

theorem foldl_appendOfs_some (vs : List byteOffsets) (a : byteOffsets) :
    vs.foldl appendOfs (some a) = some (a ++ vs.flatten) := by
  induction vs generalizing a with
  | nil => simp
  | cons v vs ih => simp [appendOfs, ih]

theorem foldl_appendOfs_none (vs : List byteOffsets) :
    vs.foldl appendOfs none = toSlice vs.flatten := by
  induction vs with
  | nil => simp [toSlice]
  | cons v vs ih =>
    by_cases hv : v = []
    · simp [appendOfs, hv, ih]
    · simp [appendOfs, hv, foldl_appendOfs_some, toSlice]

theorem toSlice_getD (l : byteOffsets) : (toSlice l).getD [] = l := by
  unfold toSlice
  split <;> simp_all

/-- The second loop of `Build` never fails, and it leaves the runs of its
input: their names inserted in order, their offset lists as the table. -/
theorem buildLoop_runs {β : Type} (ins : β → GoString → β) (init : β)
    (dofs : List defLowerNameAndOffset) :
    ∀ (rest pre : List defLowerNameAndOffset) (s : LoopState β),
      dofs = pre ++ rest →
      s.bt = ((pre.foldl pushRun []).reverse.map Prod.fst).foldl ins init →
      s.Values = (pre.foldl pushRun []).reverse.map Prod.snd →
      (pre ≠ [] → ∃ e g gs, dofs.get? s.j = some e ∧ pre.foldl pushRun [] = g :: gs ∧
        e.lowerName = g.1) →
      ∃ s', buildLoop ins dofs pre.length rest s = some s' ∧
        s'.bt = ((runs dofs).map Prod.fst).foldl ins init ∧
        s'.Values = (runs dofs).map Prod.snd := by
  intro rest
  induction rest with
  | nil =>
    intro pre s hd hbt hv _
    simp only [List.append_nil] at hd
    subst hd
    exact ⟨s, by simp [buildLoop], hbt, hv⟩
  | cons d rest ih =>
    intro pre s hd hbt hv hj
    have hd' : dofs = (pre ++ [d]) ++ rest := by simp [hd]
    have hlen : (pre ++ [d]).length = pre.length + 1 := by simp
    have hget : dofs.get? pre.length = some d := by
      rw [hd, List.get?_eq_getElem?, List.getElem?_append_right (le_refl _)]; simp
    by_cases hpre : pre = []
    · subst hpre
      simp only [List.foldl_nil, List.reverse_nil, List.map_nil] at hbt hv
      have := ih [d]
        { bt := ins s.bt d.lowerName, Values := s.Values ++ [[d.ofs]], j := 0 } (by simpa using hd)
        (by simp [pushRun, hbt]) (by simp [pushRun, hv])
        (fun _ => ⟨d, (d.lowerName, [d.ofs]), [], by simpa using hget, by simp [pushRun], rfl⟩)
      simpa [buildLoop] using this
    · obtain ⟨e, g, gs, hje, hg, heg⟩ := hj hpre
      have hpos : 0 < pre.length := List.length_pos.mpr hpre
      obtain ⟨n, os⟩ := g
      simp only at heg
      have hje' : dofs[s.j]? = some e := by simpa using hje
      by_cases hsame : n = d.lowerName
      · have hpush : (pre ++ [d]).foldl pushRun [] = (n, os ++ [d.ofs]) :: gs := by
          simp [List.foldl_append, hg, pushRun, hsame]
        have hvals : appendToLast s.Values d.ofs
            = some (gs.reverse.map Prod.snd ++ [os ++ [d.ofs]]) := by
          rw [hv, hg]
          simpa using appendToLast_append (gs.reverse.map Prod.snd) os d.ofs
        have := ih (pre ++ [d])
          { s with Values := gs.reverse.map Prod.snd ++ [os ++ [d.ofs]] } hd'
          (by rw [hpush]; simp [hbt, hg]) (by rw [hpush]; simp)
          (fun _ => ⟨e, (n, os ++ [d.ofs]), gs, hje, hpush, heg⟩)
        rw [hlen] at this
        simpa [buildLoop, hpos, hje', heg, hsame, hvals] using this
      · have hpush : (pre ++ [d]).foldl pushRun [] = (d.lowerName, [d.ofs]) :: (n, os) :: gs := by
          simp [List.foldl_append, hg, pushRun, hsame]
        have := ih (pre ++ [d])
          { bt := ins s.bt d.lowerName, Values := s.Values ++ [[d.ofs]], j := pre.length } hd'
          (by rw [hpush]; simp [hbt, hg, List.foldl_append])
          (by rw [hpush]; simp [hv, hg])
          (fun _ => ⟨d, (d.lowerName, [d.ofs]), (n, os) :: gs, hget, hpush, rfl⟩)
        rw [hlen] at this
        simpa [buildLoop, hpos, hje', heg, hsame] using this

theorem buildLoop_eq {β : Type} (ins : β → GoString → β) (init : β)
    (dofs : List defLowerNameAndOffset) :
    ∃ s', buildLoop ins dofs 0 dofs ⟨init, [], 0⟩ = some s' ∧
      s'.bt = ((runs dofs).map Prod.fst).foldl ins init ∧
      s'.Values = (runs dofs).map Prod.snd := by
  simpa using buildLoop_runs ins init dofs dofs [] ⟨init, [], 0⟩ rfl (by simp) (by simp)
    (by simp)

/-! ## Runs of a sorted list -/

theorem pushRun_expand (rg : List (GoString × byteOffsets)) (d : defLowerNameAndOffset) :
    ((pushRun rg d).reverse.map expandRun).flatten
      = (rg.reverse.map expandRun).flatten ++ [d] := by
  cases rg with
  | nil => simp [pushRun, expandRun]
  | cons g gs =>
    obtain ⟨n, os⟩ := g
    by_cases h : n = d.lowerName
    · subst h
      simp [pushRun, expandRun]
    · simp [pushRun, h, expandRun]

theorem foldl_pushRun_expand (rest : List defLowerNameAndOffset) :
    ∀ rg : List (GoString × byteOffsets),
      ((rest.foldl pushRun rg).reverse.map expandRun).flatten
        = (rg.reverse.map expandRun).flatten ++ rest := by
  induction rest with
  | nil => simp
  | cons d rest ih =>
    intro rg
    rw [List.foldl_cons, ih, pushRun_expand, List.append_assoc]
    rfl

/-- The runs, expanded in order, are the list they were taken from. -/
theorem runs_expand (l : List defLowerNameAndOffset) :
    ((runs l).map expandRun).flatten = l := by
  simpa [runs] using foldl_pushRun_expand l []

theorem foldl_pushRun_ne_nil (rest : List defLowerNameAndOffset) :
    ∀ rg : List (GoString × byteOffsets), (∀ g ∈ rg, g.2 ≠ []) →
      ∀ g ∈ rest.foldl pushRun rg, g.2 ≠ [] := by
  induction rest with
  | nil => simp
  | cons d rest ih =>
    intro rg hrg
    apply ih
    cases rg with
    | nil => simp [pushRun]
    | cons g gs =>
      obtain ⟨n, os⟩ := g
      by_cases h : n = d.lowerName
      · simp only [pushRun, h, if_true]
        intro g hg
        rcases List.mem_cons.mp hg with rfl | hg
        · simp
        · exact hrg g (List.mem_cons_of_mem _ hg)
      · simp only [pushRun, h, if_false]
        intro g hg
        rcases List.mem_cons.mp hg with rfl | hg
        · simp
        · exact hrg g hg

/-- Every run holds an offset. -/
theorem runs_ne_nil (l : List defLowerNameAndOffset) : ∀ g ∈ runs l, g.2 ≠ [] := by
  intro g hg
  exact foldl_pushRun_ne_nil l [] (by simp) g (by simpa [runs] using hg)

theorem foldl_pushRun_sorted (rest : List defLowerNameAndOffset) :
    ∀ rg : List (GoString × byteOffsets),
      (rg.map Prod.fst).Pairwise (fun a b => b < a) →
      (∀ g ∈ rg, ∀ e ∈ rest, g.1 ≤ e.lowerName) →
      rest.Pairwise (fun a b => a.lowerName ≤ b.lowerName) →
      ((rest.foldl pushRun rg).map Prod.fst).Pairwise (fun a b => b < a) := by
  induction rest with
  | nil => intro rg h _ _; simpa using h
  | cons d rest ih =>
    intro rg hrg hle hs
    rw [List.pairwise_cons] at hs
    simp only [List.foldl_cons]
    cases rg with
    | nil =>
      apply ih
      · simp [pushRun]
      · intro g hg e he
        simp only [pushRun, List.mem_singleton] at hg
        subst hg
        exact hs.1 e he
      · exact hs.2
    | cons g gs =>
      obtain ⟨n, os⟩ := g
      by_cases h : n = d.lowerName
      · apply ih
        · simpa [pushRun, h] using hrg
        · intro g hg e he
          simp only [pushRun, h, if_true] at hg
          rcases List.mem_cons.mp hg with rfl | hg
          · exact hs.1 e he
          · exact hle g (List.mem_cons_of_mem _ hg) e (List.mem_cons_of_mem _ he)
        · exact hs.2
      · have hnd : n < d.lowerName :=
          lt_of_le_of_ne (hle (n, os) (by simp) d (by simp)) h
        apply ih
        · simp only [pushRun, h, if_false, List.map_cons, List.pairwise_cons]
          simp only [List.map_cons, List.pairwise_cons] at hrg
          refine ⟨?_, hrg⟩
          intro a ha
          rcases List.mem_cons.mp ha with rfl | ha
          · exact hnd
          · exact lt_trans (hrg.1 a ha) hnd
        · intro g hg e he
          simp only [pushRun, h, if_false] at hg
          rcases List.mem_cons.mp hg with rfl | hg
          · exact hs.1 e he
          · exact hle g hg e (List.mem_cons_of_mem _ he)
        · exact hs.2

/-- The names of the runs of a sorted list ascend strictly. -/
theorem runs_sorted (l : List defLowerNameAndOffset)
    (h : l.Pairwise (fun a b => a.lowerName ≤ b.lowerName)) :
    ((runs l).map Prod.fst).Pairwise (· < ·) := by
  have := foldl_pushRun_sorted l [] (by simp) (by simp) h
  rw [runs, List.map_reverse, List.pairwise_reverse]
  exact this

theorem runs_eq_nil_iff (l : List defLowerNameAndOffset) : runs l = [] ↔ l = [] := by
  constructor
  · intro h
    have := runs_expand l
    rw [h] at this
    simpa using this.symm
  · intro h; subst h; rfl

/-- A name is the name of a run exactly when an entry carries it. -/
theorem mem_runs_fst (l : List defLowerNameAndOffset) (n : GoString) :
    n ∈ (runs l).map Prod.fst ↔ ∃ e ∈ l, e.lowerName = n := by
  constructor
  · intro h
    obtain ⟨g, hg, rfl⟩ := List.mem_map.mp h
    obtain ⟨o, os, ho⟩ := List.exists_cons_of_ne_nil (runs_ne_nil l g hg)
    refine ⟨⟨g.1, o⟩, ?_, rfl⟩
    rw [← runs_expand l]
    simp only [List.mem_flatten, List.mem_map]
    exact ⟨expandRun g, ⟨g, hg, rfl⟩, by simp [expandRun, ho]⟩
  · rintro ⟨e, he, rfl⟩
    rw [← runs_expand l] at he
    simp only [List.mem_flatten, List.mem_map] at he
    obtain ⟨_, ⟨g, hg, rfl⟩, heg⟩ := he
    simp only [expandRun, List.mem_map] at heg
    obtain ⟨o, _, rfl⟩ := heg
    exact List.mem_map.mpr ⟨g, hg, rfl⟩

/-! ## Prefixes in the order of strings -/

/-- A string is not above a string it starts. -/
theorem not_lt_of_isPrefix : ∀ (w k : GoString), w <+: k → ¬ k < w
  | [], k, _ => by
    intro h
    exact List.Lex.not_nil_right _ _ h
  | c :: w, k, h => by
    obtain ⟨s, rfl⟩ := h
    intro hlt
    have : (w ++ s) < w := by
      have h2 : List.Lex (· < ·) (c :: (w ++ s)) (c :: w) := hlt
      exact List.Lex.cons_iff.mp h2
    exact not_lt_of_isPrefix w (w ++ s) (List.prefix_append w s) this

/-- Between a string and one of its extensions lie only its extensions. -/
theorem isPrefix_of_between : ∀ (w a b : GoString), a < b → w <+: b → ¬ a < w → w <+: a
  | [], a, _, _, _, _ => List.nil_prefix
  | c :: w, [], _, _, _, hna => absurd (List.Lex.nil) hna
  | c :: w, x :: a, b, hab, hwb, hna => by
    obtain ⟨s, rfl⟩ := hwb
    have hab' : List.Lex (· < ·) (x :: a) (c :: (w ++ s)) := hab
    have hna' : ¬ List.Lex (· < ·) (x :: a) (c :: w) := hna
    by_cases hxc : x = c
    · subst hxc
      have h1 : a < w ++ s := List.Lex.cons_iff.mp hab'
      have h2 : ¬ a < w := fun h => hna' (List.Lex.cons h)
      have := isPrefix_of_between w a (w ++ s) h1 (List.prefix_append w s) h2
      exact (List.prefix_cons_inj x).mpr this
    · exfalso
      cases hab' with
      | cons h => exact hxc rfl
      | rel h => exact hna' (List.Lex.rel h)

theorem isPrefixOf_eq_true (w k : GoString) : w.isPrefixOf k = true ↔ w <+: k :=
  List.isPrefixOf_iff_prefix

/-! ## A sorted list cut by two predicates -/

theorem filter_eq_nil_of_forall {γ : Type} (Q : γ → Bool) (l : List γ)
    (h : ∀ x ∈ l, Q x = false) : l.filter Q = [] := by
  rw [List.filter_eq_nil_iff]
  intro x hx
  simp [h x hx]

/-- In a list where the elements with `P` come first and those with `Q`
follow them, the elements with `Q` are the segment of `Q`-many elements
behind the `P`-many first ones. -/
theorem drop_take_eq_filter {γ : Type} (P Q : γ → Bool) :
    ∀ (l : List γ), (∀ x ∈ l, P x = true → Q x = false) →
      l.Pairwise (fun x y => (P y = true → P x = true) ∧
        (Q y = true → P x = true ∨ Q x = true)) →
      (l.take ((l.filter P).length + (l.filter Q).length)).drop (l.filter P).length
        = l.filter Q
  | [], _, _ => by simp
  | x :: l, hd, hm => by
    rw [List.pairwise_cons] at hm
    have ih := drop_take_eq_filter P Q l (fun y hy => hd y (List.mem_cons_of_mem _ hy)) hm.2
    by_cases hP : P x = true
    · have hQ : Q x = false := hd x (by simp) hP
      simp only [List.filter_cons, hP, hQ, if_true, List.length_cons, Bool.false_eq_true,
        if_false]
      have : (List.filter P l).length + 1 + (List.filter Q l).length
          = ((List.filter P l).length + (List.filter Q l).length) + 1 := by omega
      rw [this, List.take_succ_cons, List.drop_succ_cons]
      simpa using ih
    · simp only [Bool.not_eq_true] at hP
      have hPl : l.filter P = [] :=
        filter_eq_nil_of_forall P l (fun y hy => by
          have := (hm.1 y hy).1
          cases hy' : P y
          · rfl
          · rw [this hy'] at hP; exact absurd hP (by simp))
      rw [hPl] at ih
      by_cases hQ : Q x = true
      · simp only [List.filter_cons, hP, hQ, if_true, hPl, List.length_nil, List.length_cons,
          zero_add, List.drop_zero, List.take_succ_cons]
        simpa using ih
      · simp only [Bool.not_eq_true] at hQ
        have hQl : l.filter Q = [] :=
          filter_eq_nil_of_forall Q l (fun y hy => by
            have := (hm.1 y hy).2
            cases hy' : Q y
            · rfl
            · rcases this hy' with h | h
              · rw [h] at hP; exact absurd hP (by simp)
              · rw [h] at hQ; exact absurd hQ (by simp))
        simp [List.filter_cons, hP, hQ, hPl, hQl]

theorem filter_length_add_le {γ : Type} (P Q : γ → Bool) :
    ∀ (l : List γ), (∀ x ∈ l, P x = true → Q x = false) →
      (l.filter P).length + (l.filter Q).length ≤ l.length
  | [], _ => by simp
  | x :: l, hd => by
    have ih := filter_length_add_le P Q l (fun y hy => hd y (List.mem_cons_of_mem _ hy))
    by_cases hP : P x = true
    · have hQ : Q x = false := hd x (by simp) hP
      simp only [List.filter_cons, hP, hQ, if_true, List.length_cons]
      simp only [Bool.false_eq_true, if_false]
      omega
    · simp only [Bool.not_eq_true] at hP
      by_cases hQ : Q x = true
      · simp only [List.filter_cons, hP, hQ, if_true, List.length_cons]
        simp only [Bool.false_eq_true, if_false]
        omega
      · simp only [Bool.not_eq_true] at hQ
        simp only [List.filter_cons, hP, hQ, List.length_cons]
        simp only [Bool.false_eq_true, if_false]
        omega

theorem flatten_map_filter {γ δ : Type} (Q : γ → Bool) (f : γ → List δ) :
    ∀ l : List γ, (l.map (fun g => if Q g = true then f g else [])).flatten
      = ((l.filter Q).map f).flatten
  | [] => by simp
  | x :: l => by
    have ih := flatten_map_filter Q f l
    by_cases h : Q x = true
    · simp [List.filter_cons, h, ih]
    · simp only [Bool.not_eq_true] at h
      simp [List.filter_cons, h, ih]

/-! ## The query on a table of runs -/

theorem proper_count (w : GoString) :
    ∀ keys : List GoString, keys.Nodup →
      ((keys.filter (fun k => w.isPrefixOf k && decide (k ≠ w))).length : Int)
          + (if w ∈ keys then 1 else 0)
        = ((keys.filter (fun k => w.isPrefixOf k)).length : Int)
  | [], _ => by simp
  | k :: ks, hnd => by
    rw [List.nodup_cons] at hnd
    have ih := proper_count w ks hnd.2
    by_cases hk : k = w
    · subst hk
      have hself : List.isPrefixOf k k = true := (isPrefixOf_eq_true k k).mpr (List.prefix_refl k)
      simp only [hnd.1, if_false, add_zero] at ih
      have e1 : (k :: ks).filter (fun j => List.isPrefixOf k j && decide (j ≠ k))
          = ks.filter (fun j => List.isPrefixOf k j && decide (j ≠ k)) := by
        simp [List.filter_cons]
      have e2 : (k :: ks).filter (fun j => List.isPrefixOf k j)
          = k :: ks.filter (fun j => List.isPrefixOf k j) := by
        simp [List.filter_cons, hself]
      rw [e1, e2, ih]
      simp
    · have hwk : ¬ w = k := fun h => hk h.symm
      have hmem : (w ∈ k :: ks) ↔ (w ∈ ks) := by simp [hwk]
      by_cases hp : w.isPrefixOf k = true
      · have e1 : (k :: ks).filter (fun j => List.isPrefixOf w j && decide (j ≠ w))
            = k :: ks.filter (fun j => List.isPrefixOf w j && decide (j ≠ w)) := by
          simp [List.filter_cons, hp, hk]
        have e2 : (k :: ks).filter (fun j => List.isPrefixOf w j)
            = k :: ks.filter (fun j => List.isPrefixOf w j) := by
          simp [List.filter_cons, hp]
        rw [e1, e2]
        simp only [hmem, List.length_cons, Nat.cast_add, Nat.cast_one]
        rw [← ih]
        ring
      · simp only [Bool.not_eq_true] at hp
        have e1 : (k :: ks).filter (fun j => List.isPrefixOf w j && decide (j ≠ w))
            = ks.filter (fun j => List.isPrefixOf w j && decide (j ≠ w)) := by
          simp [List.filter_cons, hp]
        have e2 : (k :: ks).filter (fun j => List.isPrefixOf w j)
            = ks.filter (fun j => List.isPrefixOf w j) := by
          simp [List.filter_cons, hp]
        rw [e1, e2]
        simp only [hmem]
        exact ih

/-- The ranks `rankedTraverse` hands out, once `getByQuery` has adjusted them
for a final node: the keys below the word are skipped, the keys the word
starts are taken. -/
theorem rankedTraverse_found (keys : List GoString) (hnd : keys.Nodup) (w : GoString)
    (h : keys.any (fun k => w.isPrefixOf k) = true) :
    ∃ node i, rankedTraverse keys w = (some node, i) ∧
      (if node.Final then i - 1 else i) = ((keys.filter (fun k => decide (k < w))).length : Int) ∧
      (if node.Final then node.Number + 1 else node.Number)
        = ((keys.filter (fun k => w.isPrefixOf k)).length : Int) := by
  refine ⟨⟨decide (w ∈ keys),
      ((keys.filter (fun k => w.isPrefixOf k && decide (k ≠ w))).length : Int)⟩,
    ((keys.filter (fun k => decide (k < w))).length : Int) + (if w ∈ keys then 1 else 0),
    ?_, ?_, ?_⟩
  · simp only [rankedTraverse, h, if_true]
  · by_cases hm : w ∈ keys <;> simp [hm]
  · have := proper_count w keys hnd
    by_cases hm : w ∈ keys
    · simp only [hm, if_true] at this
      simp only [hm, decide_True, if_true]
      exact this
    · simp only [hm, if_false, add_zero] at this
      simp only [hm, decide_False]
      exact this

theorem any_map_fst (p : GoString → Bool) :
    ∀ rs : List (GoString × byteOffsets), (rs.map Prod.fst).any p = rs.any (fun g => p g.1)
  | [] => rfl
  | g :: rs => by
    have ih := any_map_fst p rs
    simp only [List.map_cons, List.any_cons, ih]

theorem sliceValues_segment {T : Type} (mt : mafsaTable T) (a m : Nat)
    (h : a + m ≤ mt.Values.length) :
    sliceValues mt (a : Int) ((a : Int) + (m : Int))
      = some ((mt.Values.take (a + m)).drop a) := by
  unfold sliceValues
  have h1 : (0 : Int) ≤ (a : Int) := Int.ofNat_nonneg a
  have h2 : (a : Int) ≤ (a : Int) + (m : Int) := by omega
  have h3 : (a : Int) + (m : Int) ≤ ((max mt.cap mt.Values.length : Nat) : Int) := by
    have : a + m ≤ max mt.cap mt.Values.length := le_trans h (le_max_right _ _)
    exact_mod_cast this
  rw [if_pos ⟨h1, h2, h3⟩]
  have e1 : ((a : Int) + (m : Int)).toNat = a + m := by omega
  have e2 : (a : Int).toNat = a := by omega
  rw [e1, e2, List.take_append_of_le_length h]

/-- The query on a table that holds the offset lists of runs with strictly
ascending names, traversed as `rankedTraverse` says: the offsets of the runs
whose name the lower-cased query starts. -/
theorem getByQuery_runs (L : Lib) (x : defQueryIndex L.Tree) (t : Option L.Tree)
    (b : List Nat) (cap : Nat) (rs : List (GoString × byteOffsets))
    (hmt : x.mt = some ⟨t, b, rs.map Prod.snd, cap⟩)
    (hs : (rs.map Prod.fst).Pairwise (· < ·))
    (htr : ∀ w, L.IndexedTraverse t w = .ret (rankedTraverse (rs.map Prod.fst) w))
    (q : GoString) :
    getByQuery L x q =
      if rs.any (fun g => (L.ToLower q).isPrefixOf g.1) then
        .ret (toSlice ((rs.filter (fun g => (L.ToLower q).isPrefixOf g.1)).map
          Prod.snd).flatten, true)
      else .ret (none, false) := by
  unfold getByQuery
  rw [hmt]
  simp only [htr]
  generalize L.ToLower q = w
  have hany : (rs.map Prod.fst).any (fun k => w.isPrefixOf k)
      = rs.any (fun g => w.isPrefixOf g.1) := any_map_fst _ rs
  by_cases hf : rs.any (fun g => w.isPrefixOf g.1) = true
  · rw [if_pos hf]
    have hnd : (rs.map Prod.fst).Nodup := hs.imp (fun h => ne_of_lt h)
    obtain ⟨node, i, hrt, hi, hn⟩ := rankedTraverse_found (rs.map Prod.fst) hnd w
      (hany.trans hf)
    rw [hrt]
    simp only [hi, hn]
    have eP : ((rs.map Prod.fst).filter (fun k => decide (k < w))).length
        = (rs.filter (fun g => decide (g.1 < w))).length := by
      rw [List.filter_map, List.length_map]; rfl
    have eQ : ((rs.map Prod.fst).filter (fun k => w.isPrefixOf k)).length
        = (rs.filter (fun g => w.isPrefixOf g.1)).length := by
      rw [List.filter_map, List.length_map]; rfl
    rw [eP, eQ]
    have hdisj : ∀ g ∈ rs, decide (g.1 < w) = true → w.isPrefixOf g.1 = false := by
      intro g _ hg
      have hlt : g.1 < w := of_decide_eq_true hg
      cases hp : w.isPrefixOf g.1
      · rfl
      · exact absurd hlt (not_lt_of_isPrefix w g.1 ((isPrefixOf_eq_true w g.1).mp hp))
    have hmono : rs.Pairwise (fun g h => (decide (h.1 < w) = true → decide (g.1 < w) = true) ∧
        (w.isPrefixOf h.1 = true → decide (g.1 < w) = true ∨ w.isPrefixOf g.1 = true)) := by
      have hs' : rs.Pairwise (fun g h => g.1 < h.1) := by
        simpa [List.pairwise_map] using hs
      refine hs'.imp ?_
      intro g h hgh
      constructor
      · intro hh
        exact decide_eq_true (lt_trans hgh (of_decide_eq_true hh))
      · intro hh
        by_cases hg : g.1 < w
        · exact Or.inl (decide_eq_true hg)
        · exact Or.inr ((isPrefixOf_eq_true w g.1).mpr
            (isPrefix_of_between w g.1 h.1 hgh ((isPrefixOf_eq_true w h.1).mp hh) hg))
    have hle := filter_length_add_le (fun g : GoString × byteOffsets => decide (g.1 < w))
      (fun g => w.isPrefixOf g.1) rs hdisj
    have hseg := drop_take_eq_filter (fun g : GoString × byteOffsets => decide (g.1 < w))
      (fun g => w.isPrefixOf g.1) rs hdisj hmono
    rw [sliceValues_segment _ _ _ (by simpa using hle)]
    simp only [foldl_appendOfs_none]
    have : List.drop (rs.filter (fun g => decide (g.1 < w))).length
        (List.take ((rs.filter (fun g => decide (g.1 < w))).length
          + (rs.filter (fun g => w.isPrefixOf g.1)).length) (rs.map Prod.snd))
        = (rs.filter (fun g => w.isPrefixOf g.1)).map Prod.snd := by
      rw [← List.map_take, ← List.map_drop, hseg]
    rw [this]
  · rw [if_neg hf]
    have : rankedTraverse (rs.map Prod.fst) w = (none, -1) := by
      simp only [rankedTraverse, hany, hf, if_false]
      simp
    rw [this]

/-! ## The table `Build` leaves -/

theorem expandRun_filter_map (p : GoString → Bool) (g : GoString × byteOffsets) :
    ((expandRun g).filter (fun e => p e.lowerName)).map (fun e => e.ofs)
      = if p g.1 = true then g.2 else [] := by
  unfold expandRun
  by_cases h : p g.1 = true
  · rw [if_pos h, List.filter_map, List.map_map]
    have : List.filter ((fun e : defLowerNameAndOffset => p e.lowerName) ∘
        fun o => ({ lowerName := g.1, ofs := o } : defLowerNameAndOffset)) g.2 = g.2 := by
      rw [List.filter_eq_self]
      intro a _
      simpa using h
    rw [this]
    simp [Function.comp_def]
  · rw [if_neg h, List.filter_map]
    simp only [Bool.not_eq_true] at h
    have : List.filter ((fun e : defLowerNameAndOffset => p e.lowerName) ∘
        fun o => ({ lowerName := g.1, ofs := o } : defLowerNameAndOffset)) g.2 = [] := by
      apply filter_eq_nil_of_forall
      intro a _
      simpa using h
    rw [this]
    simp

/-- The offsets of the runs with a name in `p`, in order, are the offsets of
the entries with a name in `p`. -/
theorem runs_filter_flatten (p : GoString → Bool) (l : List defLowerNameAndOffset) :
    (((runs l).filter (fun g => p g.1)).map Prod.snd).flatten
      = (l.filter (fun e => p e.lowerName)).map (fun e => e.ofs) := by
  conv_rhs => rw [← runs_expand l]
  rw [List.filter_flatten, List.map_flatten, List.map_map, List.map_map,
    ← flatten_map_filter (fun g : GoString × byteOffsets => p g.1) Prod.snd (runs l)]
  congr 1
  apply List.map_congr_left
  intro g _
  simp only [Function.comp_apply]
  exact (expandRun_filter_map p g).symm

theorem Build_none_selected (L : Lib) (x : defQueryIndex L.Tree) (defs : List Def)
    (ofs : byteOffsets) (h : selectDefs L x.f defs ofs = some []) :
    Build L x defs ofs = ({ x with mt := some ⟨none, [], [], 0⟩, ready := true }, .ret none) := by
  simp [Build, h]

/-- The index after a `Build` that selected some def and returned nil: the
table holds the offset lists of the runs of the sorted entries, the automaton
was built from their names and decoded from its encoding without error. -/
theorem Build_ok_table (L : Lib) (x : defQueryIndex L.Tree) (defs : List Def)
    (ofs : byteOffsets) (dofs : List defLowerNameAndOffset)
    (hsel : selectDefs L x.f defs ofs = some dofs) (hne : dofs ≠ [])
    (hok : (Build L x defs ofs).2 = .ret none) :
    ∃ b t,
      L.MarshalBinary (L.Finish (((runs (L.sortDefs dofs)).map Prod.fst).foldl L.Insert L.New))
        = .ok b ∧
      L.Decode b = (t, none) ∧
      (Build L x defs ofs).1 = { x with
        mt := some ⟨t, b, (runs (L.sortDefs dofs)).map Prod.snd, dofs.length⟩, ready := true } := by
  obtain ⟨s', hloop, hbt, hv⟩ := buildLoop_eq L.Insert L.New (L.sortDefs dofs)
  have hlen : ¬ dofs.length = 0 := fun h => hne (List.length_eq_zero.mp h)
  unfold Build at hok ⊢
  simp only [hsel, hlen, if_false, hloop] at hok ⊢
  rw [hbt] at hok ⊢
  rw [hv] at hok ⊢
  cases hm : L.MarshalBinary
      (L.Finish (List.foldl L.Insert L.New (List.map Prod.fst (runs (L.sortDefs dofs))))) with
  | error e => simp [hm] at hok
  | ok b =>
    simp only [hm] at hok ⊢
    rcases hdec : L.Decode b with ⟨t, _ | e⟩
    · simp only [hdec] at hok ⊢
      exact ⟨b, t, rfl, hdec, rfl⟩
    · simp [hdec] at hok

theorem sortDefs_sorted (L : Lib) (hsort : SortSpec L) (l : List defLowerNameAndOffset) :
    (L.sortDefs l).Pairwise (fun a b => a.lowerName ≤ b.lowerName) := by
  refine (hsort l).2.imp ?_
  intro a b h
  simp only [Less, decide_eq_false_iff_not] at h
  exact not_lt.mp h

/-- The names of the runs `Build` makes ascend strictly. -/
theorem keys_sorted (L : Lib) (hsort : SortSpec L) (l : List defLowerNameAndOffset) :
    ((runs (L.sortDefs l)).map Prod.fst).Pairwise (· < ·) :=
  runs_sorted _ (sortDefs_sorted L hsort l)

theorem keys_ne_nil (L : Lib) (hsort : SortSpec L) (l : List defLowerNameAndOffset)
    (hne : l ≠ []) : (runs (L.sortDefs l)).map Prod.fst ≠ [] := by
  intro h
  have h1 : runs (L.sortDefs l) = [] := List.map_eq_nil_iff.mp h
  have h2 : L.sortDefs l = [] := (runs_eq_nil_iff _).mp h1
  have := (hsort l).1
  rw [h2] at this
  exact hne (List.Perm.nil_eq this).symm

theorem selected_ne_nil (L : Lib) (f : Def → Bool) (defs : List Def) (ofs : byteOffsets)
    (hlen : defs.length = ofs.length) (h : ∃ d ∈ defs, f d = true) :
    selected L f defs ofs ≠ [] := by
  obtain ⟨d, hd, hf⟩ := h
  obtain ⟨i, hi, rfl⟩ := List.getElem_of_mem hd
  have hi' : i < ofs.length := hlen ▸ hi
  have hz : (defs[i], ofs[i]) ∈ defs.zip ofs := by
    have hl : i < (defs.zip ofs).length := by simp [List.length_zip]; omega
    have := List.getElem_mem hl
    simpa [List.getElem_zip] using this
  intro hnil
  simp only [selected, List.map_eq_nil_iff, List.filter_eq_nil_iff] at hnil
  exact hnil _ hz hf

/-- The query on the index a successful `Build` of some selected def
leaves. -/
theorem getByQuery_Build (L : Lib) (hsort : SortSpec L) (htrav : TraverseSpec L)
    (x : defQueryIndex L.Tree) (defs : List Def) (ofs : byteOffsets)
    (dofs : List defLowerNameAndOffset)
    (hsel : selectDefs L x.f defs ofs = some dofs) (hne : dofs ≠ [])
    (hok : (Build L x defs ofs).2 = .ret none) (q : GoString) :
    getByQuery L (Build L x defs ofs).1 q =
      if (runs (L.sortDefs dofs)).any (fun g => (L.ToLower q).isPrefixOf g.1) then
        .ret (toSlice (((runs (L.sortDefs dofs)).filter
          (fun g => (L.ToLower q).isPrefixOf g.1)).map Prod.snd).flatten, true)
      else .ret (none, false) := by
  obtain ⟨b, t, hm, hdec, hx⟩ := Build_ok_table L x defs ofs _ hsel hne hok
  have hks := keys_sorted L hsort dofs
  have htr := htrav _ b t (keys_ne_nil L hsort _ hne) hks hm hdec
  exact getByQuery_runs L _ t b _ _ (by rw [hx]) hks htr q

theorem Build_ret_selectDefs (L : Lib) (x : defQueryIndex L.Tree) (defs : List Def)
    (ofs : byteOffsets) (hok : (Build L x defs ofs).2 = .ret none) :
    ∃ dofs, selectDefs L x.f defs ofs = some dofs := by
  cases h : selectDefs L x.f defs ofs with
  | none => simp [Build, h] at hok
  | some dofs => exact ⟨dofs, rfl⟩

theorem mem_selected (L : Lib) (f : Def → Bool) (defs : List Def) (ofs : byteOffsets)
    (e : defLowerNameAndOffset) :
    e ∈ selected L f defs ofs ↔
      ∃ p ∈ defs.zip ofs, f p.1 = true ∧ e = ⟨L.ToLower p.1.Name, p.2⟩ := by
  simp only [selected, List.mem_map, List.mem_filter]
  constructor
  · rintro ⟨p, ⟨hp, hf⟩, rfl⟩
    exact ⟨p, hp, hf, rfl⟩
  · rintro ⟨p, hp, hf, rfl⟩
    exact ⟨p, ⟨hp, hf⟩, rfl⟩

/-- A name is a key of the built table exactly when a selected def carries it. -/
theorem mem_keys (L : Lib) (hsort : SortSpec L) (f : Def → Bool) (defs : List Def)
    (ofs : byteOffsets) (n : GoString) :
    n ∈ (runs (L.sortDefs (selected L f defs ofs))).map Prod.fst ↔
      ∃ p ∈ defs.zip ofs, f p.1 = true ∧ L.ToLower p.1.Name = n := by
  rw [mem_runs_fst]
  constructor
  · rintro ⟨e, he, rfl⟩
    obtain ⟨p, hp, hf, rfl⟩ := (mem_selected L f defs ofs e).mp (((hsort _).1.mem_iff).mp he)
    exact ⟨p, hp, hf, rfl⟩
  · rintro ⟨p, hp, hf, rfl⟩
    exact ⟨⟨L.ToLower p.1.Name, p.2⟩,
      ((hsort _).1.mem_iff).mpr ((mem_selected L f defs ofs _).mpr ⟨p, hp, hf, rfl⟩), rfl⟩

theorem any_keys_iff (L : Lib) (hsort : SortSpec L) (f : Def → Bool) (defs : List Def)
    (ofs : byteOffsets) (w : GoString) :
    (runs (L.sortDefs (selected L f defs ofs))).any (fun g => w.isPrefixOf g.1) = true ↔
      ∃ p ∈ defs.zip ofs, f p.1 = true ∧ w <+: L.ToLower p.1.Name := by
  rw [← any_map_fst (fun k => w.isPrefixOf k), List.any_eq_true]
  constructor
  · rintro ⟨k, hk, hp⟩
    obtain ⟨p, hp', hf, rfl⟩ := (mem_keys L hsort f defs ofs k).mp hk
    exact ⟨p, hp', hf, (isPrefixOf_eq_true _ _).mp hp⟩
  · rintro ⟨p, hp, hf, hw⟩
    exact ⟨_, (mem_keys L hsort f defs ofs _).mpr ⟨p, hp, hf, rfl⟩,
      (isPrefixOf_eq_true _ _).mpr hw⟩

theorem selected_filter_map (L : Lib) (f : Def → Bool) (defs : List Def) (ofs : byteOffsets)
    (p : GoString → Bool) :
    ((selected L f defs ofs).filter (fun e => p e.lowerName)).map (fun e => e.ofs)
      = ((defs.zip ofs).filter (fun pr => f pr.1 && p (L.ToLower pr.1.Name))).map Prod.snd := by
  simp only [selected, List.filter_map, List.map_map, List.filter_filter]
  congr 1
  apply List.filter_congr
  intro pr _
  simp [Bool.and_comm]

/-- The offsets of the runs of the sorted entries with a name in `p` are, up
to their order, the offsets of the selected defs with a lower-cased name in
`p`. -/
theorem runs_offsets_perm (L : Lib) (hsort : SortSpec L) (f : Def → Bool) (defs : List Def)
    (ofs : byteOffsets) (p : GoString → Bool) :
    ((((runs (L.sortDefs (selected L f defs ofs))).filter (fun g => p g.1)).map
        Prod.snd).flatten).Perm
      (((defs.zip ofs).filter (fun pr => f pr.1 && p (L.ToLower pr.1.Name))).map Prod.snd) := by
  rw [runs_filter_flatten, ← selected_filter_map]
  exact ((hsort _).1.filter _).map _

/-! ## The reference library meets the contracts -/

theorem refLib_sortSpec : SortSpec refLib := by
  intro l
  refine ⟨List.perm_insertionSort _ l, ?_⟩
  have hs := @List.sorted_insertionSort defLowerNameAndOffset
    (fun a b => a.lowerName ≤ b.lowerName) _
    ⟨fun a b => le_total a.lowerName b.lowerName⟩
    ⟨fun a b c hab hbc => le_trans hab hbc⟩ l
  refine List.Pairwise.imp ?_ hs
  intro a b h
  simp only [Less, decide_eq_false_iff_not]
  exact not_lt.mpr h

theorem decodeKeysAux_encodeKeys :
    ∀ (ks : List GoString) (fuel : Nat), ks.length ≤ fuel →
      decodeKeysAux fuel (encodeKeys ks) = ks
  | [], 0, _ => rfl
  | [], _ + 1, _ => rfl
  | k :: ks, 0, h => by simp at h
  | k :: ks, fuel + 1, h => by
    have ih := decodeKeysAux_encodeKeys ks fuel (by simpa using h)
    have hk : k.length = (k.map Char.toNat).length := by simp
    simp only [encodeKeys, decodeKeysAux]
    rw [hk, List.take_left, List.drop_left, ih]
    simp [Function.comp_def, Char.ofNat_toNat]

theorem length_le_encodeKeys : ∀ ks : List GoString, ks.length ≤ (encodeKeys ks).length
  | [] => by simp [encodeKeys]
  | k :: ks => by
    have := length_le_encodeKeys ks
    simp only [encodeKeys, List.length_cons, List.length_append, List.length_map]
    omega

theorem decodeKeys_encodeKeys (ks : List GoString) : decodeKeys (encodeKeys ks) = ks :=
  decodeKeysAux_encodeKeys ks _ (length_le_encodeKeys ks)

theorem foldl_snoc (ks : List GoString) :
    ∀ acc : List GoString, ks.foldl (fun bt k => bt ++ [k]) acc = acc ++ ks := by
  induction ks with
  | nil => simp
  | cons k ks ih => intro acc; simp [ih]

theorem refLib_traverseSpec : TraverseSpec refLib := by
  intro keys b t _ _ hm hd w
  have hb : b = 1 :: encodeKeys keys := by
    have : (Except.ok (1 :: encodeKeys (keys.foldl (fun bt k => bt ++ [k]) [])) :
        Except Error (List Nat)) = .ok b := hm
    rw [foldl_snoc] at this
    simpa using this.symm
  subst hb
  have ht : t = some keys := by
    have : ((some (decodeKeys (encodeKeys keys)), none) :
        Option (List GoString) × Option Error) = (t, none) := hd
    rw [decodeKeys_encodeKeys] at this
    exact (congrArg Prod.fst this).symm
  subst ht
  rfl

theorem refLib_nilTraverseSpec : NilTraverseSpec refLib := fun _ => rfl

theorem refLib_encodeSpec : EncodeSpec refLib := by
  intro bt b h
  have : (Except.ok (1 :: encodeKeys bt) : Except Error (List Nat)) = .ok b := h
  have hb : b = 1 :: encodeKeys bt := by simpa using this.symm
  simp [hb]

theorem unzigzag_zigzag (z : Int) : unzigzag (zigzag z) = z := by
  unfold unzigzag zigzag
  split <;> split <;> omega

theorem decodeValuesAux_encodeValues :
    ∀ (vs : List byteOffsets) (fuel : Nat), vs.length ≤ fuel →
      decodeValuesAux fuel (encodeValues vs) = vs
  | [], 0, _ => rfl
  | [], _ + 1, _ => rfl
  | v :: vs, 0, h => by simp at h
  | v :: vs, fuel + 1, h => by
    have ih := decodeValuesAux_encodeValues vs fuel (by simpa using h)
    have hv : v.length = (v.map zigzag).length := by simp
    simp only [encodeValues, decodeValuesAux]
    rw [hv, List.take_left, List.drop_left, ih]
    simp [Function.comp_def, unzigzag_zigzag]

theorem length_le_encodeValues : ∀ vs : List byteOffsets, vs.length ≤ (encodeValues vs).length
  | [] => by simp [encodeValues]
  | v :: vs => by
    have := length_le_encodeValues vs
    simp only [encodeValues, List.length_cons, List.length_append, List.length_map]
    omega

theorem refLib_recordSpec : RecordSpec refLib := by
  intro B V b h
  have : (Except.ok (B.length :: (B ++ encodeValues V)) : Except Error (List Nat)) = .ok b := h
  have hb : b = B.length :: (B ++ encodeValues V) := by simpa using this.symm
  subst hb
  have hlt : ¬ (B ++ encodeValues V).length < B.length := by simp
  have hV : decodeValuesAux (encodeValues V).length (encodeValues V) = V :=
    decodeValuesAux_encodeValues V _ (length_le_encodeValues V)
  simp only [refLib, hlt, if_false, List.take_left, List.drop_left, hV]
  simp

theorem sortDefs_nil (L : Lib) (hsort : SortSpec L) : L.sortDefs [] = [] :=
  List.Perm.eq_nil (hsort []).1

/-- The names `Build` hands to `Insert` are the names of the runs of the
sorted entries. -/
theorem insertedNames_eq (L : Lib) (hsort : SortSpec L) (f : Def → Bool) (defs : List Def)
    (ofs : byteOffsets) (dofs : List defLowerNameAndOffset)
    (hsel : selectDefs L f defs ofs = some dofs) :
    insertedNames L f defs ofs = (runs (L.sortDefs dofs)).map Prod.fst := by
  unfold insertedNames
  rw [hsel]
  by_cases hne : dofs = []
  · subst hne
    simp [sortDefs_nil L hsort, runs]
  · have hlen : ¬ dofs.length = 0 := fun h => hne (List.length_eq_zero.mp h)
    obtain ⟨s', hloop, hbt, _⟩ :=
      buildLoop_eq (fun (log : List GoString) k => log ++ [k]) [] (L.sortDefs dofs)
    simp only [hlen, if_false, hloop, hbt, foldl_snoc, List.nil_append]

/-- The value table after a `Build` that returned nil: the offset lists of
the runs of the sorted entries. -/
theorem Build_ok_values (L : Lib) (hsort : SortSpec L) (x : defQueryIndex L.Tree)
    (defs : List Def) (ofs : byteOffsets) (dofs : List defLowerNameAndOffset)
    (hsel : selectDefs L x.f defs ofs = some dofs)
    (hok : (Build L x defs ofs).2 = .ret none) :
    ∃ mt, (Build L x defs ofs).1.mt = some mt ∧
      mt.Values = (runs (L.sortDefs dofs)).map Prod.snd := by
  by_cases hne : dofs = []
  · subst hne
    rw [Build_none_selected L x defs ofs hsel]
    exact ⟨_, rfl, by simp [sortDefs_nil L hsort, runs]⟩
  · obtain ⟨b, t, _, _, hx⟩ := Build_ok_table L x defs ofs dofs hsel hne hok
    rw [hx]
    exact ⟨_, rfl, rfl⟩

theorem filter_fst_eq (g : GoString × byteOffsets) :
    ∀ rs : List (GoString × byteOffsets), (rs.map Prod.fst).Nodup → g ∈ rs →
      rs.filter (fun h => decide (h.1 = g.1)) = [g]
  | [], _, hg => by simp at hg
  | r :: rs, hnd, hg => by
    simp only [List.map_cons, List.nodup_cons] at hnd
    rcases List.mem_cons.mp hg with rfl | hg'
    · have : rs.filter (fun h => decide (h.1 = g.1)) = [] := by
        apply filter_eq_nil_of_forall
        intro h hh
        simp only [decide_eq_false_iff_not]
        intro he
        exact hnd.1 (he ▸ List.mem_map_of_mem Prod.fst hh)
      simp [List.filter_cons, this]
    · have hne : ¬ r.1 = g.1 := by
        intro he
        exact hnd.1 (he ▸ List.mem_map_of_mem Prod.fst hg')
      simp [List.filter_cons, hne, filter_fst_eq g rs hnd.2 hg']

theorem Defs_congr (L : Lib) (x y : defQueryIndex L.Tree)
    (h : ∀ q, getByQuery L x q = getByQuery L y q) :
    ∀ fs : List DefFilter, Defs L x fs = Defs L y fs
  | [] => rfl
  | .byDefQuery q :: _ => by simp only [Defs, h q]
  | .other _ :: rest => by simpa only [Defs] using Defs_congr L x y h rest

theorem Defs_not_found (L : Lib) (x : defQueryIndex L.Tree)
    (h : ∀ q, getByQuery L x q = .ret (none, false)) :
    ∀ fs : List DefFilter, Defs L x fs = .ret (none, none)
  | [] => rfl
  | .byDefQuery q :: _ => by simp [Defs, h q]
  | .other _ :: rest => by simpa only [Defs] using Defs_not_found L x h rest

theorem Write_ret (L : Lib) (x : defQueryIndex L.Tree) (w : List Nat → Option Error)
    (bytes : List Nat) (e : Option Error) (h : Write L x w = .ret (some bytes, e)) :
    ∃ mt, x.mt = some mt ∧ L.Marshal mt.B mt.Values = .ok bytes := by
  unfold Write at h
  cases hmt : x.mt with
  | none => simp [hmt] at h
  | some mt =>
    simp only [hmt] at h
    cases hm : L.Marshal mt.B mt.Values with
    | error e' => simp [hm] at h
    | ok b =>
      simp only [hm, Outcome.ret.injEq, Prod.mk.injEq, Option.some.injEq] at h
      exact ⟨mt, rfl, h.1 ▸ hm⟩

/-- `Read` on bytes that unmarshal without error. -/
theorem Read_unmarshalled (L : Lib) (x : defQueryIndex L.Tree) (bytes : List Nat)
    (herr : (L.Unmarshal bytes).err = none) :
    Read L x (bytes, none) =
      if 0 < (L.Unmarshal bytes).B.length then
        ({ x with
            mt := some ⟨(L.Decode (L.Unmarshal bytes).B).1, (L.Unmarshal bytes).B,
              (L.Unmarshal bytes).Values, (L.Unmarshal bytes).cap⟩,
            ready := decide ((L.Decode (L.Unmarshal bytes).B).2 = none) },
          (L.Decode (L.Unmarshal bytes).B).2)
      else
        ({ x with
            mt := some ⟨none, (L.Unmarshal bytes).B, (L.Unmarshal bytes).Values,
              (L.Unmarshal bytes).cap⟩,
            ready := true }, none) := by
  unfold Read
  by_cases hB : 0 < (L.Unmarshal bytes).B.length
  · simp [herr, hB]
  · simp [herr, hB]

theorem getByQuery_nil_tree (L : Lib) (hnil : NilTraverseSpec L) (x : defQueryIndex L.Tree)
    (B : List Nat) (V : List byteOffsets) (cap : Nat) (hmt : x.mt = some ⟨none, B, V, cap⟩)
    (q : GoString) : getByQuery L x q = .ret (none, false) := by
  unfold getByQuery
  rw [hmt]
  simp only [hnil (L.ToLower q)]

/-! ## Prefix search (C1) -/

/-- C1. Prefix search is correct. For aligned defs and offsets with some
selected def, after `Build` returned nil, `getByQuery(q)` returns without
panic; it reports found exactly when some selected def's lower-cased name
starts with the lower-cased query, and then the returned offsets are a
permutation of the offsets of exactly those selected defs (the automaton and
the sort meeting their contracts). When nothing is found the list is nil. -/
theorem getByQuery_prefix_search (L : Lib) (hsort : SortSpec L) (htrav : TraverseSpec L)
    (x : defQueryIndex L.Tree) (defs : List Def) (ofs : byteOffsets)
    (hlen : defs.length = ofs.length) (hsel : ∃ d ∈ defs, x.f d = true)
    (hok : (Build L x defs ofs).2 = .ret none) (q : GoString) :
    ∃ r found, getByQuery L (Build L x defs ofs).1 q = .ret (r, found) ∧
      (found = true ↔
        ∃ p ∈ defs.zip ofs, x.f p.1 = true ∧ L.ToLower q <+: L.ToLower p.1.Name) ∧
      (found = true → (r.getD []).Perm (((defs.zip ofs).filter
        (fun p => x.f p.1 && (L.ToLower q).isPrefixOf (L.ToLower p.1.Name))).map Prod.snd)) ∧
      (found = false → r = none) := by
  have hne := selected_ne_nil L x.f defs ofs hlen hsel
  have hq := getByQuery_Build L hsort htrav x defs ofs _
    (selectDefs_aligned L x.f defs ofs hlen) hne hok q
  have hany := any_keys_iff L hsort x.f defs ofs (L.ToLower q)
  by_cases hf : (runs (L.sortDefs (selected L x.f defs ofs))).any
      (fun g => (L.ToLower q).isPrefixOf g.1) = true
  · rw [if_pos hf] at hq
    refine ⟨_, true, hq, ?_, ?_, ?_⟩
    · simp only [true_iff]
      exact hany.mp hf
    · intro _
      rw [toSlice_getD]
      exact runs_offsets_perm L hsort x.f defs ofs (fun k => (L.ToLower q).isPrefixOf k)
    · intro h; cases h
  · rw [if_neg hf] at hq
    refine ⟨none, false, hq, ?_, ?_, ?_⟩
    · constructor
      · intro h; cases h
      · intro h; exact absurd (hany.mpr h) hf
    · intro h; cases h
    · intro _; rfl

/-- C1, on the example defs and the query `fO`. -/
theorem getByQuery_prefix_search_witness :
    (exDefs.length = exOfs.length ∧ (Build refLib refIndex exDefs exOfs).2 = .ret none) ∧
    ∃ r found, getByQuery refLib (Build refLib refIndex exDefs exOfs).1 "fO".data
        = .ret (r, found) ∧
      (found = true ↔ ∃ p ∈ exDefs.zip exOfs, refIndex.f p.1 = true ∧
        refLib.ToLower "fO".data <+: refLib.ToLower p.1.Name) ∧
      (found = true → (r.getD []).Perm (((exDefs.zip exOfs).filter
        (fun p => refIndex.f p.1 &&
          (refLib.ToLower "fO".data).isPrefixOf (refLib.ToLower p.1.Name))).map Prod.snd)) ∧
      (found = false → r = none) :=
  ⟨⟨by decide, by decide⟩,
    getByQuery_prefix_search refLib refLib_sortSpec refLib_traverseSpec refIndex exDefs exOfs
      (by decide) ⟨⟨"Foo".data, []⟩, by decide, rfl⟩ (by decide) "fO".data⟩

/-! ## Case-insensitivity (C4) -/

/-- C4. Queries are case-insensitive: on the index `Build` leaves, two query
strings with the same lower-casing get the same answer from `getByQuery`,
found flag and offset list alike (as they do on any index). -/
theorem getByQuery_case_insensitive (L : Lib) (x : defQueryIndex L.Tree) (defs : List Def)
    (ofs : byteOffsets) (q1 q2 : GoString) (h : L.ToLower q1 = L.ToLower q2) :
    getByQuery L (Build L x defs ofs).1 q1 = getByQuery L (Build L x defs ofs).1 q2 := by
  unfold getByQuery
  rw [h]

/-- C4, on the example defs: `FOOb` and `foob` get the same answer. -/
theorem getByQuery_case_insensitive_witness :
    refLib.ToLower "FOOb".data = refLib.ToLower "foob".data ∧
    getByQuery refLib (Build refLib refIndex exDefs exOfs).1 "FOOb".data
      = getByQuery refLib (Build refLib refIndex exDefs exOfs).1 "foob".data :=
  ⟨by decide,
    getByQuery_case_insensitive refLib refIndex exDefs exOfs "FOOb".data "foob".data
      (by decide)⟩

/-! ## The value table of `Build` (C5, C6, C7) -/

/-- C5. `Build` neither loses nor duplicates an offset: for aligned defs and
offsets, after `Build` returned nil the lists of `Values`, one after the
other, are a permutation of the offsets of the selected defs. -/
theorem Build_offsets_perm (L : Lib) (hsort : SortSpec L) (x : defQueryIndex L.Tree)
    (defs : List Def) (ofs : byteOffsets) (hlen : defs.length = ofs.length)
    (hok : (Build L x defs ofs).2 = .ret none) :
    ∃ mt, (Build L x defs ofs).1.mt = some mt ∧
      mt.Values.flatten.Perm (((defs.zip ofs).filter (fun p => x.f p.1)).map Prod.snd) := by
  obtain ⟨mt, hmt, hv⟩ := Build_ok_values L hsort x defs ofs _
    (selectDefs_aligned L x.f defs ofs hlen) hok
  refine ⟨mt, hmt, ?_⟩
  have := runs_offsets_perm L hsort x.f defs ofs (fun _ => true)
  simpa [hv] using this

/-- C5, on the example defs. -/
theorem Build_offsets_perm_witness :
    (exDefs.length = exOfs.length ∧ (Build refLib refIndex exDefs exOfs).2 = .ret none) ∧
    ∃ mt, (Build refLib refIndex exDefs exOfs).1.mt = some mt ∧
      mt.Values.flatten.Perm
        (((exDefs.zip exOfs).filter (fun p => refIndex.f p.1)).map Prod.snd) :=
  ⟨⟨by decide, by decide⟩,
    Build_offsets_perm refLib refLib_sortSpec refIndex exDefs exOfs (by decide) (by decide)⟩

/-- C6. One table entry per distinct name: for aligned defs and offsets,
after `Build` returned nil `Values` has as many entries as names were
inserted into the automaton, which is the number of distinct lower-cased
names of the selected defs; the inserted names are exactly those names, in
strictly ascending order (so none is inserted twice), and the `k`-th entry of
`Values` holds, up to order, exactly the offsets of the selected defs with
the `k`-th inserted name. -/
theorem Build_entry_per_name (L : Lib) (hsort : SortSpec L) (x : defQueryIndex L.Tree)
    (defs : List Def) (ofs : byteOffsets) (hlen : defs.length = ofs.length)
    (hok : (Build L x defs ofs).2 = .ret none) :
    ∃ mt, (Build L x defs ofs).1.mt = some mt ∧
      mt.Values.length = (insertedNames L x.f defs ofs).length ∧
      (insertedNames L x.f defs ofs).length
        = (((defs.zip ofs).filter (fun p => x.f p.1)).map
            (fun p => L.ToLower p.1.Name)).dedup.length ∧
      (insertedNames L x.f defs ofs).Pairwise (· < ·) ∧
      (∀ n, n ∈ insertedNames L x.f defs ofs ↔
        ∃ p ∈ defs.zip ofs, x.f p.1 = true ∧ L.ToLower p.1.Name = n) ∧
      ∀ (k : Nat) (n : GoString), (insertedNames L x.f defs ofs)[k]? = some n →
        ∃ v : byteOffsets, mt.Values[k]? = some v ∧
          v.Perm (((defs.zip ofs).filter
            (fun p => x.f p.1 && decide (L.ToLower p.1.Name = n))).map Prod.snd) := by
  have hsel := selectDefs_aligned L x.f defs ofs hlen
  obtain ⟨mt, hmt, hv⟩ := Build_ok_values L hsort x defs ofs _ hsel hok
  have hnames := insertedNames_eq L hsort x.f defs ofs _ hsel
  have hks := keys_sorted L hsort (selected L x.f defs ofs)
  have hnd : ((runs (L.sortDefs (selected L x.f defs ofs))).map Prod.fst).Nodup :=
    hks.imp (fun h => ne_of_lt h)
  have hmem := mem_keys L hsort x.f defs ofs
  refine ⟨mt, hmt, ?_, ?_, ?_, ?_, ?_⟩
  · rw [hv, hnames]; simp
  · rw [hnames]
    apply List.Perm.length_eq
    rw [List.perm_ext_iff_of_nodup hnd (List.nodup_dedup _)]
    intro n
    rw [hmem n, List.mem_dedup, List.mem_map]
    constructor
    · rintro ⟨p, hp, hf, rfl⟩
      exact ⟨p, List.mem_filter.mpr ⟨hp, hf⟩, rfl⟩
    · rintro ⟨p, hp, rfl⟩
      exact ⟨p, (List.mem_filter.mp hp).1, (List.mem_filter.mp hp).2, rfl⟩
  · rw [hnames]; exact hks
  · intro n; rw [hnames]; exact hmem n
  · intro k n hk
    rw [hnames, List.getElem?_map] at hk
    cases hg : (runs (L.sortDefs (selected L x.f defs ofs)))[k]? with
    | none => simp [hg] at hk
    | some g =>
      simp only [hg, Option.map_some', Option.some.injEq] at hk
      refine ⟨g.2, by rw [hv, List.getElem?_map, hg]; rfl, ?_⟩
      have hgm : g ∈ runs (L.sortDefs (selected L x.f defs ofs)) := List.getElem?_mem hg
      subst hk
      have := runs_offsets_perm L hsort x.f defs ofs (fun k => decide (k = g.1))
      rw [filter_fst_eq g _ hnd hgm] at this
      simpa using this

/-- C6, on the example defs. -/
theorem Build_entry_per_name_witness :
    (exDefs.length = exOfs.length ∧ (Build refLib refIndex exDefs exOfs).2 = .ret none) ∧
    ∃ mt, (Build refLib refIndex exDefs exOfs).1.mt = some mt ∧
      mt.Values.length = (insertedNames refLib refIndex.f exDefs exOfs).length ∧
      (insertedNames refLib refIndex.f exDefs exOfs).length
        = (((exDefs.zip exOfs).filter (fun p => refIndex.f p.1)).map
            (fun p => refLib.ToLower p.1.Name)).dedup.length ∧
      (insertedNames refLib refIndex.f exDefs exOfs).Pairwise (· < ·) ∧
      (∀ n, n ∈ insertedNames refLib refIndex.f exDefs exOfs ↔
        ∃ p ∈ exDefs.zip exOfs, refIndex.f p.1 = true ∧ refLib.ToLower p.1.Name = n) ∧
      ∀ (k : Nat) (n : GoString), (insertedNames refLib refIndex.f exDefs exOfs)[k]? = some n →
        ∃ v : byteOffsets, mt.Values[k]? = some v ∧
          v.Perm (((exDefs.zip exOfs).filter
            (fun p => refIndex.f p.1 && decide (refLib.ToLower p.1.Name = n))).map Prod.snd) :=
  ⟨⟨by decide, by decide⟩,
    Build_entry_per_name refLib refLib_sortSpec refIndex exDefs exOfs (by decide) (by decide)⟩

/-- C7. Sorted insertion: the names `Build` passes to the automaton's
`Insert` are, in call order, strictly ascending in the order of strings, so
no call can fail the builder's ordering check. -/
theorem insertedNames_strictly_ascending (L : Lib) (hsort : SortSpec L) (f : Def → Bool)
    (defs : List Def) (ofs : byteOffsets) :
    (insertedNames L f defs ofs).Pairwise (· < ·) := by
  cases hsel : selectDefs L f defs ofs with
  | none => simp [insertedNames, hsel]
  | some dofs =>
    rw [insertedNames_eq L hsort f defs ofs dofs hsel]
    exact keys_sorted L hsort dofs

/-- C7, on the example defs: `foo`, `foobar`, `foobaz`, `qux` are inserted,
in this order. -/
theorem insertedNames_strictly_ascending_witness :
    insertedNames refLib refIndex.f exDefs exOfs
      = ["foo".data, "foobar".data, "foobaz".data, "qux".data] ∧
    (insertedNames refLib refIndex.f exDefs exOfs).Pairwise (· < ·) :=
  ⟨by decide,
    insertedNames_strictly_ascending refLib refLib_sortSpec refIndex.f exDefs exOfs⟩

/-! ## The empty build (C2) -/

/-- C2. Empty build: when no def is selected (the empty def list included),
`Build` returns nil and `Ready()` is true; afterwards `getByQuery` reports
not-found for every query, and `Defs` returns `(nil, nil)` for every filter
list, neither with an error nor with a panic (the traversal of the nil tree
finding no node). -/
theorem Build_none_selected_queries (L : Lib) (hnil : NilTraverseSpec L)
    (x : defQueryIndex L.Tree) (defs : List Def) (ofs : byteOffsets)
    (hnone : ∀ d ∈ defs, x.f d = false) :
    (Build L x defs ofs).2 = .ret none ∧
    Ready (Build L x defs ofs).1 = true ∧
    (∀ q, getByQuery L (Build L x defs ofs).1 q = .ret (none, false)) ∧
    (∀ fs, Defs L (Build L x defs ofs).1 fs = .ret (none, none)) := by
  have hb := Build_none_selected L x defs ofs (selectDefs_none_selected L x.f defs ofs hnone)
  have hq : ∀ q, getByQuery L (Build L x defs ofs).1 q = .ret (none, false) := by
    intro q
    exact getByQuery_nil_tree L hnil _ [] [] 0 (by rw [hb]) q
  refine ⟨by rw [hb], by rw [hb]; rfl, hq, Defs_not_found L _ hq⟩

/-- C2, on the example defs, none of which the index selects. -/
theorem Build_none_selected_queries_witness :
    (∀ d ∈ exDefs, pickyIndex.f d = false) ∧
    (Build refLib pickyIndex exDefs exOfs).2 = .ret none ∧
    Ready (Build refLib pickyIndex exDefs exOfs).1 = true ∧
    (∀ q, getByQuery refLib (Build refLib pickyIndex exDefs exOfs).1 q = .ret (none, false)) ∧
    (∀ fs, Defs refLib (Build refLib pickyIndex exDefs exOfs).1 fs = .ret (none, none)) :=
  ⟨by decide,
    Build_none_selected_queries refLib refLib_nilTraverseSpec pickyIndex exDefs exOfs
      (by decide)⟩

/-! ## Persistence (C3) -/

/-- C3. Persistence round trip: after a `Build` that returned nil, the bytes
a successful `Write` hands to the sink are read by `Read`, into any index,
without error; `Ready()` is then true, the automaton bytes `B`, the value
table and the decoded tree are those of the built index, and `getByQuery` and
`Defs` answer every query as the built index does (the libraries meeting
their contracts). -/
theorem Read_Write_Build (L : Lib) (hsort : SortSpec L) (htrav : TraverseSpec L)
    (hnil : NilTraverseSpec L) (henc : EncodeSpec L) (hrec : RecordSpec L)
    (x x0 : defQueryIndex L.Tree) (defs : List Def) (ofs : byteOffsets)
    (hok : (Build L x defs ofs).2 = .ret none)
    (w : List Nat → Option Error) (bytes : List Nat)
    (hw : Write L (Build L x defs ofs).1 w = .ret (some bytes, none)) :
    (Read L x0 (bytes, none)).2 = none ∧
    Ready (Read L x0 (bytes, none)).1 = true ∧
    (∃ mt mt', (Build L x defs ofs).1.mt = some mt ∧
      (Read L x0 (bytes, none)).1.mt = some mt' ∧
      mt'.B = mt.B ∧ mt'.Values = mt.Values ∧ mt'.t = mt.t) ∧
    (∀ q, getByQuery L (Read L x0 (bytes, none)).1 q
      = getByQuery L (Build L x defs ofs).1 q) ∧
    (∀ fs, Defs L (Read L x0 (bytes, none)).1 fs = Defs L (Build L x defs ofs).1 fs) := by
  obtain ⟨dofs, hsel⟩ := Build_ret_selectDefs L x defs ofs hok
  obtain ⟨mt, hmt, hmar⟩ := Write_ret L _ w bytes none hw
  obtain ⟨hB, hV, herr⟩ := hrec _ _ _ hmar
  have hread := Read_unmarshalled L x0 bytes herr
  rw [hB, hV] at hread
  by_cases hne : dofs = []
  · subst hne
    have hb := Build_none_selected L x defs ofs hsel
    have hmt' : mt = ⟨none, [], [], 0⟩ := by
      rw [hb] at hmt
      exact (Option.some.inj hmt).symm
    subst hmt'
    simp only [List.length_nil, lt_self_iff_false, if_false] at hread
    have hq : ∀ q, getByQuery L (Read L x0 (bytes, none)).1 q
        = getByQuery L (Build L x defs ofs).1 q := by
      intro q
      rw [getByQuery_nil_tree L hnil _ [] [] _ (by rw [hread]) q,
        getByQuery_nil_tree L hnil _ [] [] 0 hmt q]
    refine ⟨by rw [hread], by rw [hread]; rfl,
      ⟨_, ⟨none, [], [], (L.Unmarshal bytes).cap⟩, hmt, by rw [hread], rfl, rfl, rfl⟩, hq,
      Defs_congr L _ _ hq⟩
  · obtain ⟨b, t, hm, hdec, hx⟩ := Build_ok_table L x defs ofs dofs hsel hne hok
    have hmt' : mt = ⟨t, b, (runs (L.sortDefs dofs)).map Prod.snd, dofs.length⟩ := by
      rw [hx] at hmt
      exact (Option.some.inj hmt).symm
    subst hmt'
    have hbne : 0 < b.length := List.length_pos.mpr (henc _ _ hm)
    simp only [hbne, if_true, hdec, decide_True] at hread
    have hks := keys_sorted L hsort dofs
    have htr := htrav _ b t (keys_ne_nil L hsort _ hne) hks hm hdec
    have hq : ∀ q, getByQuery L (Read L x0 (bytes, none)).1 q
        = getByQuery L (Build L x defs ofs).1 q := by
      intro q
      rw [getByQuery_runs L _ t b _ _ (by rw [hread]) hks htr q,
        getByQuery_runs L _ t b _ _ hmt hks htr q]
    refine ⟨by rw [hread], by rw [hread]; rfl,
      ⟨_, ⟨t, b, (runs (L.sortDefs dofs)).map Prod.snd, (L.Unmarshal bytes).cap⟩, hmt,
        by rw [hread], rfl, rfl, rfl⟩, hq, Defs_congr L _ _ hq⟩

/-- C3, on the example index written to a sink that takes every byte and
read back into an index that was neither built nor read. -/
theorem Read_Write_Build_witness :
    ((Build refLib refIndex exDefs exOfs).2 = .ret none ∧
      Write refLib (Build refLib refIndex exDefs exOfs).1 okSink = .ret (some exBytes, none)) ∧
    (Read refLib refIndex (exBytes, none)).2 = none ∧
    Ready (Read refLib refIndex (exBytes, none)).1 = true ∧
    (∃ mt mt', (Build refLib refIndex exDefs exOfs).1.mt = some mt ∧
      (Read refLib refIndex (exBytes, none)).1.mt = some mt' ∧
      mt'.B = mt.B ∧ mt'.Values = mt.Values ∧ mt'.t = mt.t) ∧
    (∀ q, getByQuery refLib (Read refLib refIndex (exBytes, none)).1 q
      = getByQuery refLib (Build refLib refIndex exDefs exOfs).1 q) ∧
    (∀ fs, Defs refLib (Read refLib refIndex (exBytes, none)).1 fs
      = Defs refLib (Build refLib refIndex exDefs exOfs).1 fs) :=
  ⟨⟨by decide, by decide⟩,
    Read_Write_Build refLib refLib_sortSpec refLib_traverseSpec refLib_nilTraverseSpec
      refLib_encodeSpec refLib_recordSpec refIndex refIndex exDefs exOfs (by decide) okSink
      exBytes (by decide)⟩

/-! ## Failing reads (C8, C9) -/

/-- C8 as stated fails: the example index is ready after its `Build`; a
`Read` whose source cannot be read returns the error and leaves `Ready()`
true. -/
theorem Read_source_error_stays_ready :
    Ready exIndex = true ∧
    (Read refLib exIndex ([], some "read failed")).2 = some "read failed" ∧
    Ready (Read refLib exIndex ([], some "read failed")).1 = true := by
  refine ⟨by decide, rfl, by decide⟩

/-- C8, amended. Whenever `Read` returns nil, `Ready()` is true afterwards.
When the source was read, `Read` returns an error exactly when unmarshalling
the record fails or the non-empty automaton blob fails to decode, and then
`Ready()` is false afterwards, whatever the index was before. When reading
the source fails, `Read` returns that error and `Ready()` keeps the value it
had, which is false on an index that was not ready. -/
theorem Read_ready (L : Lib) (x : defQueryIndex L.Tree) (r : List Nat × Option Error) :
    ((Read L x r).2 = none → Ready (Read L x r).1 = true) ∧
    (r.2 = none →
      ((Read L x r).2 ≠ none ↔
        ((L.Unmarshal r.1).err ≠ none ∨
          (0 < (L.Unmarshal r.1).B.length ∧ (L.Decode (L.Unmarshal r.1).B).2 ≠ none))) ∧
      ((Read L x r).2 ≠ none → Ready (Read L x r).1 = false)) ∧
    (r.2 ≠ none → (Read L x r).2 = r.2 ∧ Ready (Read L x r).1 = Ready x) := by
  obtain ⟨bytes, e⟩ := r
  cases e with
  | some e => simp [Read]
  | none =>
    by_cases hu : (L.Unmarshal bytes).err = none
    · by_cases hB : 0 < (L.Unmarshal bytes).B.length
      · by_cases hd : (L.Decode (L.Unmarshal bytes).B).2 = none
        · simp [Read, Ready, hu, hB, hd]
        · simp [Read, Ready, hu, hB, hd]
      · simp [Read, Ready, hu, hB]
    · simp [Read, Ready, hu]

/-- C9 as stated fails: an index that was neither built nor read holds no
table; after a `Read` of a record whose automaton blob does not decode,
which returns the decoder's error, it holds a table with the bytes and the
values of that record. -/
theorem Read_failure_populates_table :
    refIndex.mt.map (fun m => (m.B, m.Values)) = none ∧
    (Read refLib refIndex (badBlobBytes, none)).2 = some "mafsa: unknown format" ∧
    (Read refLib refIndex (badBlobBytes, none)).1.mt.map (fun m => (m.B, m.Values))
      = some ([9], [[7]]) := by
  refine ⟨rfl, rfl, by decide⟩

/-- C9, amended. When `Read` returns an error because the source could not be
read, the index is what it was before the call. When it returns an error
after the source was read, `Ready()` is false and `mt` is a new table: it
holds the bytes and the values that unmarshalling left, and as tree nil or
what the failed decoding returned. -/
theorem Read_failure_table (L : Lib) (x : defQueryIndex L.Tree) (r : List Nat × Option Error)
    (e : Error) (hfail : (Read L x r).2 = some e) :
    (r.2 ≠ none → (Read L x r).1 = x) ∧
    (r.2 = none →
      Ready (Read L x r).1 = false ∧
      ∃ mt, (Read L x r).1.mt = some mt ∧
        mt.B = (L.Unmarshal r.1).B ∧ mt.Values = (L.Unmarshal r.1).Values ∧
        mt.cap = (L.Unmarshal r.1).cap ∧
        (mt.t = none ∨ mt.t = (L.Decode (L.Unmarshal r.1).B).1)) := by
  obtain ⟨bytes, e'⟩ := r
  cases e' with
  | some e' => simp [Read]
  | none =>
    simp only [ne_eq, not_true_eq_false, false_implies, true_and, forall_const]
    by_cases hc : (L.Unmarshal bytes).err = none ∧ 0 < (L.Unmarshal bytes).B.length
    · have hr : Read L x (bytes, none) =
          ({ x with
              mt := some ⟨(L.Decode (L.Unmarshal bytes).B).1, (L.Unmarshal bytes).B,
                (L.Unmarshal bytes).Values, (L.Unmarshal bytes).cap⟩,
              ready := decide ((L.Decode (L.Unmarshal bytes).B).2 = none) },
            (L.Decode (L.Unmarshal bytes).B).2) := by
        simp [Read, hc]
      rw [hr] at hfail ⊢
      simp only at hfail
      refine ⟨by simp [Ready, hfail], _, rfl, rfl, rfl, rfl, Or.inr rfl⟩
    · have hr : Read L x (bytes, none) =
          ({ x with
              mt := some ⟨none, (L.Unmarshal bytes).B, (L.Unmarshal bytes).Values,
                (L.Unmarshal bytes).cap⟩,
              ready := decide ((L.Unmarshal bytes).err = none) },
            (L.Unmarshal bytes).err) := by
        simp [Read, hc]
      rw [hr] at hfail ⊢
      simp only at hfail
      refine ⟨by simp [Ready, hfail], _, rfl, rfl, rfl, rfl, Or.inl rfl⟩

/-- C9 amended, on the record whose automaton blob does not decode. -/
theorem Read_failure_table_witness :
    (Read refLib refIndex (badBlobBytes, none)).2 = some "mafsa: unknown format" ∧
    (((badBlobBytes, (none : Option Error)).2 ≠ none →
      (Read refLib refIndex (badBlobBytes, none)).1 = refIndex) ∧
    ((badBlobBytes, (none : Option Error)).2 = none →
      Ready (Read refLib refIndex (badBlobBytes, none)).1 = false ∧
      ∃ mt, (Read refLib refIndex (badBlobBytes, none)).1.mt = some mt ∧
        mt.B = (refLib.Unmarshal badBlobBytes).B ∧
        mt.Values = (refLib.Unmarshal badBlobBytes).Values ∧
        mt.cap = (refLib.Unmarshal badBlobBytes).cap ∧
        (mt.t = none ∨ mt.t = (refLib.Decode (refLib.Unmarshal badBlobBytes).B).1))) :=
  ⟨rfl, Read_failure_table refLib refIndex (badBlobBytes, none) "mafsa: unknown format" rfl⟩

/-! ## Use before build (C10) -/

/-- C10. Use before build is refused: on an index whose `mt` is nil, `Defs`
with a filter list that holds a `ByDefQueryFilter` panics, and so does
`Write`; neither returns a result, and no bytes reach the sink. -/
theorem use_before_build_panics (L : Lib) (x : defQueryIndex L.Tree) (hmt : x.mt = none)
    (fs : List DefFilter) (hq : ∃ q, DefFilter.byDefQuery q ∈ fs)
    (w : List Nat → Option Error) :
    Defs L x fs = .panic "mafsaTable not built/read" ∧
    Write L x w = .panic "no mafsaTable to write" := by
  constructor
  · induction fs with
    | nil => simp at hq
    | cons f fs ih =>
      cases f with
      | byDefQuery q => simp [Defs, getByQuery, hmt]
      | other tag =>
        obtain ⟨q, hq⟩ := hq
        simp only [List.mem_cons, reduceCtorEq, false_or] at hq
        simpa only [Defs] using ih ⟨q, hq⟩
  · simp [Write, hmt]

/-- C10, on the reference index before any build, with a filter list whose
second filter is a query for `foo`. -/
theorem use_before_build_panics_witness :
    (refIndex.mt.isNone = true ∧
      DefFilter.byDefQuery "foo".data ∈ [DefFilter.other 0, DefFilter.byDefQuery "foo".data]) ∧
    Defs refLib refIndex [DefFilter.other 0, DefFilter.byDefQuery "foo".data]
      = .panic "mafsaTable not built/read" ∧
    Write refLib refIndex okSink = .panic "no mafsaTable to write" :=
  ⟨⟨rfl, by decide⟩,
    use_before_build_panics refLib refIndex rfl
      [DefFilter.other 0, DefFilter.byDefQuery "foo".data] ⟨"foo".data, by decide⟩ okSink⟩

/-! ## Coverage and absent capability (C11, C12) -/

theorem foldl_cover_count (fs : List DefFilter) :
    ∀ cov : Int,
      fs.foldl (fun cov f =>
        match f with
        | .byDefQuery _ => cov + 1
        | .other _ => cov) cov = cov + ((fs.filter isByDefQuery).length : Int) := by
  induction fs with
  | nil => intro cov; simp
  | cons f fs ih =>
    intro cov
    cases f with
    | byDefQuery q =>
      simp only [List.foldl_cons, ih, List.filter_cons, isByDefQuery, if_true, List.length_cons,
        Nat.cast_add, Nat.cast_one]
      ring
    | other tag =>
      simp only [List.foldl_cons, ih, List.filter_cons, isByDefQuery]
      simp

theorem Covers_eq_length {T F : Type} (storeFilters : F → List DefFilter)
    (x : defQueryIndex T) (filters : F) :
    Covers storeFilters x filters = (((storeFilters filters).filter isByDefQuery).length : Int) := by
  unfold Covers
  rw [foldl_cover_count]
  simp

/-- C11. Coverage scoring: `Covers` returns the number of filters of
`storeFilters(filters)` that implement `ByDefQueryFilter`; so it is not
negative, it is 0 when none does, it is 1 for a `ByDefQueryFilter` together
with one other filter (in either order), and it is the same for every state
of the index. -/
theorem Covers_counts {T F : Type} (storeFilters : F → List DefFilter)
    (x : defQueryIndex T) (filters : F) :
    Covers storeFilters x filters
        = (((storeFilters filters).filter isByDefQuery).length : Int) ∧
    0 ≤ Covers storeFilters x filters ∧
    ((∀ f ∈ storeFilters filters, isByDefQuery f = false) → Covers storeFilters x filters = 0) ∧
    (∀ q tag, storeFilters filters = [.byDefQuery q, .other tag] ∨
        storeFilters filters = [.other tag, .byDefQuery q] →
      Covers storeFilters x filters = 1) ∧
    (∀ y : defQueryIndex T, Covers storeFilters y filters = Covers storeFilters x filters) := by
  refine ⟨Covers_eq_length storeFilters x filters, ?_, ?_, ?_, ?_⟩
  · rw [Covers_eq_length]; exact Int.ofNat_nonneg _
  · intro h
    rw [Covers_eq_length, filter_eq_nil_of_forall isByDefQuery _ h]
    rfl
  · intro q tag h
    rw [Covers_eq_length]
    rcases h with h | h <;> rw [h] <;> rfl
  · intro y
    rw [Covers_eq_length, Covers_eq_length]

theorem Defs_eq_first (L : Lib) (x : defQueryIndex L.Tree) :
    ∀ fs : List DefFilter, Defs L x fs =
      match firstByDefQuery fs with
      | none => .ret (none, none)
      | some q =>
        match getByQuery L x q with
        | .panic msg => .panic msg
        | .ret (ofs, found) => .ret (if found then ofs else none, none)
  | [] => rfl
  | .byDefQuery q :: _ => by
    simp only [Defs, firstByDefQuery]
    cases getByQuery L x q with
    | panic msg => rfl
    | ret a =>
      obtain ⟨ofs, found⟩ := a
      cases found <;> rfl
  | .other _ :: rest => by
    simp only [Defs, firstByDefQuery]
    exact Defs_eq_first L x rest

theorem firstByDefQuery_eq_none (fs : List DefFilter)
    (h : ∀ q, DefFilter.byDefQuery q ∉ fs) : firstByDefQuery fs = none := by
  induction fs with
  | nil => rfl
  | cons f fs ih =>
    cases f with
    | byDefQuery q => exact absurd (List.mem_cons_self _ _) (h q)
    | other tag =>
      simp only [firstByDefQuery]
      exact ih (fun q hq => h q (List.mem_cons_of_mem _ hq))

/-- C12. Absent capability is silent: for every library, every index, built,
read or neither, and every filter list without a `ByDefQueryFilter` (the
empty list included), `Defs` returns `(nil, nil)`; it does not panic, and
what a traversal of the automaton would do has no part in it. -/
theorem Defs_without_query (L : Lib) (x : defQueryIndex L.Tree) (fs : List DefFilter)
    (h : ∀ q, DefFilter.byDefQuery q ∉ fs) :
    Defs L x fs = .ret (none, none) := by
  rw [Defs_eq_first, firstByDefQuery_eq_none fs h]

/-- C12, on an index that was never built, with a library whose traversal
would panic. -/
theorem Defs_without_query_witness :
    (∀ q, DefFilter.byDefQuery q ∉ [DefFilter.other 1, DefFilter.other 2]) ∧
    Defs panicLib panicIndex [DefFilter.other 1, DefFilter.other 2] = .ret (none, none) :=
  ⟨by simp,
    Defs_without_query panicLib panicIndex [DefFilter.other 1, DefFilter.other 2] (by simp)⟩

/-! ## The first text query decides (C18) -/

/-- C18. `Defs` answers the first text-query filter only: for every index and
filter list, `Defs` returns `(nil, nil)` when no filter implements
`ByDefQueryFilter`, and otherwise what `getByQuery` returns for the query of
the first such filter (its panic, its list when found, nil when not found);
the filters behind the first one change nothing, while `Covers` counts every
one of them. -/
theorem Defs_first_query_only (L : Lib) (x : defQueryIndex L.Tree) (fs : List DefFilter) :
    (Defs L x fs =
      match firstByDefQuery fs with
      | none => .ret (none, none)
      | some q =>
        match getByQuery L x q with
        | .panic msg => .panic msg
        | .ret (ofs, found) => .ret (if found then ofs else none, none)) ∧
    (∀ gs, firstByDefQuery gs = firstByDefQuery fs → Defs L x gs = Defs L x fs) ∧
    (∀ pre q rest, (∀ f ∈ pre, isByDefQuery f = false) →
      Defs L x (pre ++ .byDefQuery q :: rest) = Defs L x (pre ++ [.byDefQuery q])) ∧
    Covers (fun l : List DefFilter => l) x fs = ((fs.filter isByDefQuery).length : Int) := by
  refine ⟨Defs_eq_first L x fs, ?_, ?_, Covers_eq_length _ x fs⟩
  · intro gs h
    rw [Defs_eq_first L x gs, Defs_eq_first L x fs, h]
  · intro pre q rest hpre
    have key : ∀ tail, firstByDefQuery (pre ++ .byDefQuery q :: tail) = some q := by
      intro tail
      induction pre with
      | nil => rfl
      | cons f pre ih =>
        cases f with
        | byDefQuery q' => exact absurd (hpre _ (List.mem_cons_self _ _)) (by simp [isByDefQuery])
        | other tag =>
          simp only [List.cons_append, firstByDefQuery]
          exact ih (fun f hf => hpre f (List.mem_cons_of_mem _ hf))
    rw [Defs_eq_first, Defs_eq_first, key rest, key []]

/-! ## No match (C13) -/

/-- The query on the index any `Build` that returned nil leaves, when no
selected def matches: not found. -/
theorem getByQuery_no_match (L : Lib) (hsort : SortSpec L) (htrav : TraverseSpec L)
    (hnil : NilTraverseSpec L) (x : defQueryIndex L.Tree) (defs : List Def)
    (ofs : byteOffsets) (hlen : defs.length = ofs.length)
    (hok : (Build L x defs ofs).2 = .ret none) (q : GoString)
    (hno : ¬ ∃ p ∈ defs.zip ofs, x.f p.1 = true ∧ L.ToLower q <+: L.ToLower p.1.Name) :
    getByQuery L (Build L x defs ofs).1 q = .ret (none, false) := by
  have hsel := selectDefs_aligned L x.f defs ofs hlen
  by_cases hne : selected L x.f defs ofs = []
  · rw [hne] at hsel
    have hb := Build_none_selected L x defs ofs hsel
    exact getByQuery_nil_tree L hnil _ [] [] 0 (by rw [hb]) q
  · rw [getByQuery_Build L hsort htrav x defs ofs _ hsel hne hok q]
    have hany := any_keys_iff L hsort x.f defs ofs (L.ToLower q)
    rw [if_neg (fun h => hno (hany.mp h))]

/-- C13 as stated fails: on the example index, the query `zzz` matches no
name, and `Defs` returns the nil list, not an empty list that is not nil;
this is what it returns for a filter list without any `ByDefQueryFilter`. -/
theorem Defs_no_match_is_nil :
    (Build refLib refIndex exDefs exOfs).2 = .ret none ∧
    Defs refLib exIndex [DefFilter.byDefQuery "zzz".data] = .ret (none, none) ∧
    Defs refLib exIndex [DefFilter.byDefQuery "zzz".data] ≠ .ret (some [], none) ∧
    Defs refLib exIndex [DefFilter.byDefQuery "zzz".data] = Defs refLib exIndex [] := by
  refine ⟨by decide, by decide, by decide, by decide⟩

/-- C13, amended. On the index a `Build` that returned nil leaves, for a
filter list whose first `ByDefQueryFilter` has a query that no selected def's
lower-cased name starts with, `Defs` returns the nil list with a nil error:
the same result as for a filter list without a `ByDefQueryFilter`. -/
theorem Defs_no_match (L : Lib) (hsort : SortSpec L) (htrav : TraverseSpec L)
    (hnil : NilTraverseSpec L) (x : defQueryIndex L.Tree) (defs : List Def)
    (ofs : byteOffsets) (hlen : defs.length = ofs.length)
    (hok : (Build L x defs ofs).2 = .ret none) (fs : List DefFilter) (q : GoString)
    (hfirst : firstByDefQuery fs = some q)
    (hno : ¬ ∃ p ∈ defs.zip ofs, x.f p.1 = true ∧ L.ToLower q <+: L.ToLower p.1.Name) :
    Defs L (Build L x defs ofs).1 fs = .ret (none, none) ∧
    Defs L (Build L x defs ofs).1 fs
      = Defs L (Build L x defs ofs).1 (fs.filter (fun f => !isByDefQuery f)) := by
  have h1 : Defs L (Build L x defs ofs).1 fs = .ret (none, none) := by
    rw [Defs_eq_first, hfirst]
    simp only [getByQuery_no_match L hsort htrav hnil x defs ofs hlen hok q hno]
    rfl
  refine ⟨h1, ?_⟩
  rw [h1]
  symm
  apply Defs_without_query
  intro q' hq'
  have := (List.mem_filter.mp hq').2
  simp [isByDefQuery] at this

/-- C13 amended, on the example index and the query `zzz` behind another
filter. -/
theorem Defs_no_match_witness :
    (exDefs.length = exOfs.length ∧ (Build refLib refIndex exDefs exOfs).2 = .ret none ∧
      firstByDefQuery [DefFilter.other 3, DefFilter.byDefQuery "zzz".data] = some "zzz".data) ∧
    Defs refLib (Build refLib refIndex exDefs exOfs).1
        [DefFilter.other 3, DefFilter.byDefQuery "zzz".data] = .ret (none, none) ∧
    Defs refLib (Build refLib refIndex exDefs exOfs).1
        [DefFilter.other 3, DefFilter.byDefQuery "zzz".data]
      = Defs refLib (Build refLib refIndex exDefs exOfs).1
          ([DefFilter.other 3, DefFilter.byDefQuery "zzz".data].filter
            (fun f => !isByDefQuery f)) :=
  ⟨⟨by decide, by decide, rfl⟩,
    Defs_no_match refLib refLib_sortSpec refLib_traverseSpec refLib_nilTraverseSpec refIndex
      exDefs exOfs (by decide) (by decide)
      [DefFilter.other 3, DefFilter.byDefQuery "zzz".data] "zzz".data rfl (by decide)⟩

/-! ## A failed build (C14) -/

/-- `Build` after its two loops, for some selected def: what the encoder and
the decoder return decides the result, and `ready` is set only when both
succeed. -/
theorem Build_after_loops (L : Lib) (x : defQueryIndex L.Tree) (defs : List Def)
    (ofs : byteOffsets) (dofs : List defLowerNameAndOffset)
    (hsel : selectDefs L x.f defs ofs = some dofs) (hne : dofs ≠ []) :
    Build L x defs ofs =
      match L.MarshalBinary
          (L.Finish (((runs (L.sortDefs dofs)).map Prod.fst).foldl L.Insert L.New)) with
      | .error e =>
        ({ x with mt := some ⟨none, [], (runs (L.sortDefs dofs)).map Prod.snd, dofs.length⟩ },
          .ret (some e))
      | .ok b =>
        match L.Decode b with
        | (t, some e) =>
          ({ x with mt := some ⟨t, b, (runs (L.sortDefs dofs)).map Prod.snd, dofs.length⟩ },
            .ret (some e))
        | (t, none) =>
          ({ x with
              mt := some ⟨t, b, (runs (L.sortDefs dofs)).map Prod.snd, dofs.length⟩
              ready := true }, .ret none) := by
  obtain ⟨s', hloop, hbt, hv⟩ := buildLoop_eq L.Insert L.New (L.sortDefs dofs)
  have hlen : ¬ dofs.length = 0 := fun h => hne (List.length_eq_zero.mp h)
  unfold Build
  simp only [hsel, hlen, if_false, hloop]
  rw [hbt, hv]

/-- C14. A failed `Build` is not ready: on an index that is not ready, for
aligned defs and offsets with some selected def, when the encoding of the
automaton fails `Build` returns the encoder's error, when the decoding of
the encoded bytes fails it returns the decoder's error, and whenever `Build`
returns an error `Ready()` is false afterwards. -/
theorem Build_error_not_ready (L : Lib) (x : defQueryIndex L.Tree) (defs : List Def)
    (ofs : byteOffsets) (hfresh : x.ready = false) (hlen : defs.length = ofs.length)
    (hsel : ∃ d ∈ defs, x.f d = true) :
    (∀ e, L.MarshalBinary (L.Finish ((insertedNames L x.f defs ofs).foldl L.Insert L.New))
        = .error e →
      (Build L x defs ofs).2 = .ret (some e) ∧ Ready (Build L x defs ofs).1 = false) ∧
    (∀ b t e, L.MarshalBinary (L.Finish ((insertedNames L x.f defs ofs).foldl L.Insert L.New))
        = .ok b → L.Decode b = (t, some e) →
      (Build L x defs ofs).2 = .ret (some e) ∧ Ready (Build L x defs ofs).1 = false) ∧
    (∀ e, (Build L x defs ofs).2 = .ret (some e) → Ready (Build L x defs ofs).1 = false) := by
  have hs := selectDefs_aligned L x.f defs ofs hlen
  have hne := selected_ne_nil L x.f defs ofs hlen hsel
  have hb := Build_after_loops L x defs ofs _ hs hne
  have hnames : insertedNames L x.f defs ofs
      = (runs (L.sortDefs (selected L x.f defs ofs))).map Prod.fst := by
    unfold insertedNames
    have hl : ¬ (selected L x.f defs ofs).length = 0 := fun h => hne (List.length_eq_zero.mp h)
    obtain ⟨s', hloop, hbt, _⟩ := buildLoop_eq (fun (log : List GoString) k => log ++ [k]) []
      (L.sortDefs (selected L x.f defs ofs))
    simp only [hs, hl, if_false, hloop, hbt, foldl_snoc, List.nil_append]
  rw [hnames]
  refine ⟨?_, ?_, ?_⟩
  · intro e he
    rw [hb, he]
    exact ⟨rfl, hfresh⟩
  · intro b t e hm hd
    rw [hb, hm]
    simp only [hd]
    exact ⟨trivial, hfresh⟩
  · intro e he
    rw [hb] at he ⊢
    cases hm : L.MarshalBinary (L.Finish
        (((runs (L.sortDefs (selected L x.f defs ofs))).map Prod.fst).foldl L.Insert L.New)) with
    | error e' => exact hfresh
    | ok b =>
      rw [hm] at he
      rcases hd : L.Decode b with ⟨t, _ | e'⟩
      · simp [hd] at he
      · simp only [hd]
        exact hfresh

/-- C14, on the example defs with a library whose encoder fails. -/
theorem Build_error_not_ready_witness :
    (encodeFailIndex.ready = false ∧ exDefs.length = exOfs.length) ∧
    (Build encodeFailLib encodeFailIndex exDefs exOfs).2
      = .ret (some "mafsa: encode failed") ∧
    Ready (Build encodeFailLib encodeFailIndex exDefs exOfs).1 = false :=
  ⟨⟨rfl, by decide⟩,
    (Build_error_not_ready encodeFailLib encodeFailIndex exDefs exOfs rfl (by decide)
      ⟨⟨"Foo".data, []⟩, by decide, rfl⟩).1 "mafsa: encode failed" rfl⟩

/-! ## Queries leave the index alone (C15) -/

theorem DefsS_spec (L : Lib) (s : QueryState L.Tree) :
    ∀ fs : List DefFilter, (DefsS L s fs).1.x = s.x ∧ (DefsS L s fs).2 = Defs L s.x fs
  | [] => ⟨rfl, rfl⟩
  | .byDefQuery q :: _ => by
    simp only [DefsS, getByQueryS, Defs]
    cases getByQuery L s.x q with
    | panic msg => exact ⟨rfl, rfl⟩
    | ret a => exact ⟨rfl, rfl⟩
  | .other _ :: rest => by
    simp only [DefsS, Defs]
    exact DefsS_spec L s rest

/-- C15. Queries do not mutate the index: for every state with a ready index
and every filter list, a call of `Defs` leaves the index as it was, with its
table `mt` and its flag `ready` (only the call counter may change), so a
second call with the same filter list returns what the first one
returned. -/
theorem Defs_leaves_index (L : Lib) (s : QueryState L.Tree) (hready : Ready s.x = true)
    (fs : List DefFilter) :
    (DefsS L s fs).1.x = s.x ∧
    Ready (DefsS L s fs).1.x = true ∧
    (DefsS L (DefsS L s fs).1 fs).2 = (DefsS L s fs).2 := by
  have h1 := DefsS_spec L s fs
  have h2 := DefsS_spec L (DefsS L s fs).1 fs
  refine ⟨h1.1, by rw [h1.1]; exact hready, ?_⟩
  rw [h2.2, h1.2, h1.1]

/-- C15, on the example index: two calls for `foo`, the counter going from 0
to 1. -/
theorem Defs_leaves_index_witness :
    (Ready exIndex = true ∧
      (DefsS refLib ⟨exIndex, 0⟩ [DefFilter.byDefQuery "foo".data]).1.c_defQueryIndex_getByQuery
        = 1) ∧
    (DefsS refLib ⟨exIndex, 0⟩ [DefFilter.byDefQuery "foo".data]).1.x = exIndex ∧
    Ready (DefsS refLib ⟨exIndex, 0⟩ [DefFilter.byDefQuery "foo".data]).1.x = true ∧
    (DefsS refLib (DefsS refLib ⟨exIndex, 0⟩ [DefFilter.byDefQuery "foo".data]).1
        [DefFilter.byDefQuery "foo".data]).2
      = (DefsS refLib ⟨exIndex, 0⟩ [DefFilter.byDefQuery "foo".data]).2 :=
  ⟨⟨by decide, by decide⟩,
    Defs_leaves_index refLib ⟨exIndex, 0⟩ (by decide) [DefFilter.byDefQuery "foo".data]⟩

/-! ## Ranks stay in the table, and what is found has offsets (C16, C17) -/

theorem rankedTraverse_bounds (keys : List GoString) (hnd : keys.Nodup) (w : GoString)
    (node : MinTreeNode) (i : Int) (h : rankedTraverse keys w = (some node, i)) :
    ∃ a m : Nat, (if node.Final then i - 1 else i) = (a : Int) ∧
      (if node.Final then node.Number + 1 else node.Number) = (m : Int) ∧
      a + m ≤ keys.length := by
  have hany : keys.any (fun k => w.isPrefixOf k) = true := by
    by_contra hc
    simp only [rankedTraverse, hc] at h
    simp at h
  obtain ⟨node', i', hrt, hi, hn⟩ := rankedTraverse_found keys hnd w hany
  rw [h] at hrt
  simp only [Prod.mk.injEq, Option.some.injEq] at hrt
  obtain ⟨rfl, rfl⟩ := hrt
  refine ⟨_, _, hi, hn, ?_⟩
  apply filter_length_add_le
  intro k _ hk
  have hlt : k < w := of_decide_eq_true hk
  cases hp : w.isPrefixOf k
  · rfl
  · exact absurd hlt (not_lt_of_isPrefix w k ((isPrefixOf_eq_true w k).mp hp))

/-- C16. The rank range stays in bounds: on the index a `Build` that returned
nil leaves for aligned defs and offsets with some selected def, whenever the
traversal for a query returns a node with index `i`, the range `getByQuery`
slices `Values` with (from `i`, of the node's number many entries; from
`i - 1`, of one more, for a final node) starts at 0 or above, is not of
negative length and ends within the length of `Values`, so the slice
expression does not panic (the automaton and the sort meeting their
contracts). -/
theorem getByQuery_range_in_bounds (L : Lib) (hsort : SortSpec L) (htrav : TraverseSpec L)
    (x : defQueryIndex L.Tree) (defs : List Def) (ofs : byteOffsets)
    (hlen : defs.length = ofs.length) (hsel : ∃ d ∈ defs, x.f d = true)
    (hok : (Build L x defs ofs).2 = .ret none) (q : GoString) :
    ∃ mt, (Build L x defs ofs).1.mt = some mt ∧
      ∀ node i, L.IndexedTraverse mt.t (L.ToLower q) = .ret (some node, i) →
        0 ≤ (if node.Final then i - 1 else i) ∧
        0 ≤ (if node.Final then node.Number + 1 else node.Number) ∧
        (if node.Final then i - 1 else i)
            + (if node.Final then node.Number + 1 else node.Number)
          ≤ (mt.Values.length : Int) ∧
        (sliceValues mt (if node.Final then i - 1 else i)
          ((if node.Final then i - 1 else i)
            + (if node.Final then node.Number + 1 else node.Number))).isSome = true := by
  have hne := selected_ne_nil L x.f defs ofs hlen hsel
  obtain ⟨b, t, hm, hdec, hx⟩ := Build_ok_table L x defs ofs _
    (selectDefs_aligned L x.f defs ofs hlen) hne hok
  have hks := keys_sorted L hsort (selected L x.f defs ofs)
  have htr := htrav _ b t (keys_ne_nil L hsort _ hne) hks hm hdec
  refine ⟨_, by rw [hx], ?_⟩
  intro node i hni
  simp only at hni
  rw [htr] at hni
  have hrt : rankedTraverse ((runs (L.sortDefs (selected L x.f defs ofs))).map Prod.fst)
      (L.ToLower q) = (some node, i) := by
    simpa using hni
  obtain ⟨a, m, ha, hm', hle⟩ := rankedTraverse_bounds _ (hks.imp (fun h => ne_of_lt h)) _ _ _ hrt
  rw [ha, hm']
  have hle' : a + m ≤ ((runs (L.sortDefs (selected L x.f defs ofs))).map Prod.snd).length := by
    simpa using hle
  refine ⟨Int.ofNat_nonneg a, Int.ofNat_nonneg m, by exact_mod_cast hle', ?_⟩
  rw [sliceValues_segment _ a m hle']
  rfl

/-- C16, on the example index and the query `foo`, whose node is final with
index 1 and number 2. -/
theorem getByQuery_range_in_bounds_witness :
    (exDefs.length = exOfs.length ∧ (Build refLib refIndex exDefs exOfs).2 = .ret none ∧
      refLib.IndexedTraverse (some ["foo".data, "foobar".data, "foobaz".data, "qux".data])
        (refLib.ToLower "foo".data) = .ret (some ⟨true, 2⟩, 1)) ∧
    ∃ mt, (Build refLib refIndex exDefs exOfs).1.mt = some mt ∧
      ∀ node i, refLib.IndexedTraverse mt.t (refLib.ToLower "foo".data) = .ret (some node, i) →
        0 ≤ (if node.Final then i - 1 else i) ∧
        0 ≤ (if node.Final then node.Number + 1 else node.Number) ∧
        (if node.Final then i - 1 else i)
            + (if node.Final then node.Number + 1 else node.Number)
          ≤ (mt.Values.length : Int) ∧
        (sliceValues mt (if node.Final then i - 1 else i)
          ((if node.Final then i - 1 else i)
            + (if node.Final then node.Number + 1 else node.Number))).isSome = true :=
  ⟨⟨by decide, by decide, by decide⟩,
    getByQuery_range_in_bounds refLib refLib_sortSpec refLib_traverseSpec refIndex exDefs exOfs
      (by decide) ⟨⟨"Foo".data, []⟩, by decide, rfl⟩ (by decide) "foo".data⟩

theorem flatten_filter_ne_nil (p : GoString → Bool) (rs : List (GoString × byteOffsets))
    (hrs : ∀ g ∈ rs, g.2 ≠ []) (hany : rs.any (fun g => p g.1) = true) :
    ((rs.filter (fun g => p g.1)).map Prod.snd).flatten ≠ [] := by
  obtain ⟨g, hg, hp⟩ := List.any_eq_true.mp hany
  intro h
  rw [List.flatten_eq_nil_iff] at h
  exact hrs g hg (h g.2 (List.mem_map.mpr ⟨g, List.mem_filter.mpr ⟨hg, hp⟩, rfl⟩))

theorem toSlice_of_ne_nil (l : byteOffsets) (h : l ≠ []) : toSlice l = some l := by
  simp [toSlice, h]

/-- C17. Found implies offsets: on the index a `Build` that returned nil
leaves for aligned defs and offsets with some selected def, every entry of
`Values` holds an offset; whenever `getByQuery` reports found, the list it
returns is not nil and not empty; and `Defs`, for a filter list that starts
with a `ByDefQueryFilter`, returns the nil list exactly when no selected
def's lower-cased name starts with the lower-cased query (the automaton and
the sort meeting their contracts). -/
theorem getByQuery_found_has_offsets (L : Lib) (hsort : SortSpec L) (htrav : TraverseSpec L)
    (x : defQueryIndex L.Tree) (defs : List Def) (ofs : byteOffsets)
    (hlen : defs.length = ofs.length) (hsel : ∃ d ∈ defs, x.f d = true)
    (hok : (Build L x defs ofs).2 = .ret none) :
    (∃ mt, (Build L x defs ofs).1.mt = some mt ∧ ∀ v ∈ mt.Values, v ≠ []) ∧
    (∀ q r, getByQuery L (Build L x defs ofs).1 q = .ret (r, true) →
      ∃ l, r = some l ∧ l ≠ []) ∧
    (∀ q rest, ∃ r, Defs L (Build L x defs ofs).1 (.byDefQuery q :: rest) = .ret (r, none) ∧
      (r = none ↔
        ¬ ∃ p ∈ defs.zip ofs, x.f p.1 = true ∧ L.ToLower q <+: L.ToLower p.1.Name)) := by
  have hne := selected_ne_nil L x.f defs ofs hlen hsel
  have hs := selectDefs_aligned L x.f defs ofs hlen
  have hq := getByQuery_Build L hsort htrav x defs ofs _ hs hne hok
  have hrs := runs_ne_nil (L.sortDefs (selected L x.f defs ofs))
  refine ⟨?_, ?_, ?_⟩
  · obtain ⟨mt, hmt, hv⟩ := Build_ok_values L hsort x defs ofs _ hs hok
    refine ⟨mt, hmt, ?_⟩
    intro v hv'
    rw [hv] at hv'
    obtain ⟨g, hg, rfl⟩ := List.mem_map.mp hv'
    exact hrs g hg
  · intro q r hr
    rw [hq q] at hr
    by_cases hf : (runs (L.sortDefs (selected L x.f defs ofs))).any
        (fun g => (L.ToLower q).isPrefixOf g.1) = true
    · rw [if_pos hf] at hr
      have hne' := flatten_filter_ne_nil (fun k => (L.ToLower q).isPrefixOf k) _ hrs hf
      rw [toSlice_of_ne_nil _ hne'] at hr
      simp only [Outcome.ret.injEq, Prod.mk.injEq, and_true] at hr
      exact ⟨_, hr.symm, hne'⟩
    · rw [if_neg hf] at hr
      simp at hr
  · intro q rest
    have hany := any_keys_iff L hsort x.f defs ofs (L.ToLower q)
    by_cases hf : (runs (L.sortDefs (selected L x.f defs ofs))).any
        (fun g => (L.ToLower q).isPrefixOf g.1) = true
    · have hne' := flatten_filter_ne_nil (fun k => (L.ToLower q).isPrefixOf k) _ hrs hf
      refine ⟨toSlice _, by simp only [Defs, hq q, if_pos hf]; rfl, ?_⟩
      rw [toSlice_of_ne_nil _ hne']
      constructor
      · intro h; cases h
      · intro h; exact absurd (hany.mp hf) h
    · refine ⟨none, by simp only [Defs, hq q, if_neg hf]; rfl, ?_⟩
      constructor
      · intro _ h; exact hf (hany.mpr h)
      · intro _; rfl

/-- C17, on the example index. -/
theorem getByQuery_found_has_offsets_witness :
    (exDefs.length = exOfs.length ∧ (Build refLib refIndex exDefs exOfs).2 = .ret none) ∧
    (∃ mt, (Build refLib refIndex exDefs exOfs).1.mt = some mt ∧ ∀ v ∈ mt.Values, v ≠ []) ∧
    (∀ q r, getByQuery refLib (Build refLib refIndex exDefs exOfs).1 q = .ret (r, true) →
      ∃ l, r = some l ∧ l ≠ []) ∧
    (∀ q rest, ∃ r, Defs refLib (Build refLib refIndex exDefs exOfs).1
        (.byDefQuery q :: rest) = .ret (r, none) ∧
      (r = none ↔ ¬ ∃ p ∈ exDefs.zip exOfs, refIndex.f p.1 = true ∧
        refLib.ToLower q <+: refLib.ToLower p.1.Name)) :=
  ⟨⟨by decide, by decide⟩,
    getByQuery_found_has_offsets refLib refLib_sortSpec refLib_traverseSpec refIndex exDefs
      exOfs (by decide) ⟨⟨"Foo".data, []⟩, by decide, rfl⟩ (by decide)⟩

end store

namespace authorship

/-! ## Go maps as assignment lists -/

theorem mapGet_eq_none {α : Type} (k : UnitID) :
    ∀ m : GoMap α, mapGet m k = none ↔ ∀ v, (k, v) ∉ m
  | [] => by simp [mapGet]
  | (k', v') :: m => by
    have ih := mapGet_eq_none k m
    by_cases h : k' = k
    · subst h
      simp only [mapGet, if_true]
      constructor
      · intro hc; cases hc
      · intro hc; exact absurd (List.mem_cons_self _ _) (hc v')
    · simp only [mapGet, h, if_false, ih]
      constructor
      · intro hm v hv
        rcases List.mem_cons.mp hv with he | hv
        · exact h (congrArg Prod.fst he).symm
        · exact hm v hv
      · intro hm v hv
        exact hm v (List.mem_cons_of_mem _ hv)

theorem mapGet_mem {α : Type} (k : UnitID) (v : α) :
    ∀ m : GoMap α, mapGet m k = some v → (k, v) ∈ m
  | [], h => by simp [mapGet] at h
  | (k', v') :: m, h => by
    by_cases hk : k' = k
    · subst hk
      simp only [mapGet, if_true, Option.some.injEq] at h
      subst h
      exact List.mem_cons_self _ _
    · simp only [mapGet, hk, if_false] at h
      exact List.mem_cons_of_mem _ (mapGet_mem k v m h)

theorem mapEntries_subset {α : Type} :
    ∀ (m : GoMap α) (p : UnitID × α), p ∈ mapEntries m → p ∈ m
  | [], p, h => by simp [mapEntries] at h
  | (k, v) :: m, p, h => by
    simp only [mapEntries, List.mem_cons, List.mem_filter] at h
    rcases h with h | ⟨h, _⟩
    · exact h ▸ List.mem_cons_self _ _
    · exact List.mem_cons_of_mem _ (mapEntries_subset m p h)

theorem mem_mapEntries_keys {α : Type} (k : UnitID) :
    ∀ m : GoMap α, k ∈ (mapEntries m).map Prod.fst ↔ k ∈ m.map Prod.fst
  | [] => by simp [mapEntries]
  | (k', v') :: m => by
    have ih := mem_mapEntries_keys k m
    simp only [mapEntries, List.map_cons, List.mem_cons]
    by_cases h : k = k'
    · subst h
      exact ⟨fun _ => Or.inl rfl, fun _ => Or.inl rfl⟩
    · simp only [h, false_or]
      rw [← ih]
      simp only [List.mem_map, List.mem_filter]
      constructor
      · rintro ⟨p, ⟨hp, _⟩, rfl⟩
        exact ⟨p, hp, rfl⟩
      · rintro ⟨p, hp, rfl⟩
        exact ⟨p, ⟨hp, by simpa using h⟩, rfl⟩

theorem mapEntries_nodup {α : Type} :
    ∀ m : GoMap α, ((mapEntries m).map Prod.fst).Nodup
  | [] => by simp [mapEntries]
  | (k, v) :: m => by
    have ih := mapEntries_nodup m
    simp only [mapEntries, List.map_cons, List.nodup_cons]
    constructor
    · intro h
      obtain ⟨p, hp, hk⟩ := List.mem_map.mp h
      have := (List.mem_filter.mp hp).2
      simp only [decide_eq_true_eq] at this
      exact this hk
    · exact ih.sublist ((List.filter_sublist _).map Prod.fst)

/-! ## The two loops of the maker -/

theorem foldl_collect_graph (existing : List Rule) :
    ∀ (maps : GoMap GraphUnitRule × GoMap BlameSourceUnitRule) (k : UnitID)
      (g : GraphUnitRule),
      (k, g) ∈ (existing.foldl
        (fun maps rule =>
          match rule with
          | .graph r => (mapSet maps.1 r.Unit.ID r, maps.2)
          | .blame r => (maps.1, mapSet maps.2 r.Unit.ID r)
          | .other _ => maps) maps).1 ↔
        (k, g) ∈ maps.1 ∨ (Rule.graph g ∈ existing ∧ g.Unit.ID = k) := by
  induction existing with
  | nil => intro maps k g; simp
  | cons r rest ih =>
    intro maps k g
    rw [List.foldl_cons, ih]
    cases r with
    | graph r =>
      simp only [mapSet, List.mem_cons, Prod.mk.injEq, Rule.graph.injEq]
      constructor
      · rintro ((⟨rfl, rfl⟩ | h) | ⟨h, hk⟩)
        · exact Or.inr ⟨Or.inl rfl, rfl⟩
        · exact Or.inl h
        · exact Or.inr ⟨Or.inr h, hk⟩
      · rintro (h | ⟨rfl | h, hk⟩)
        · exact Or.inl (Or.inr h)
        · exact Or.inl (Or.inl ⟨hk.symm, rfl⟩)
        · exact Or.inr ⟨h, hk⟩
    | blame r => simp
    | other tag => simp

theorem foldl_collect_blame (existing : List Rule) :
    ∀ (maps : GoMap GraphUnitRule × GoMap BlameSourceUnitRule) (k : UnitID)
      (b : BlameSourceUnitRule),
      (k, b) ∈ (existing.foldl
        (fun maps rule =>
          match rule with
          | .graph r => (mapSet maps.1 r.Unit.ID r, maps.2)
          | .blame r => (maps.1, mapSet maps.2 r.Unit.ID r)
          | .other _ => maps) maps).2 ↔
        (k, b) ∈ maps.2 ∨ (Rule.blame b ∈ existing ∧ b.Unit.ID = k) := by
  induction existing with
  | nil => intro maps k b; simp
  | cons r rest ih =>
    intro maps k b
    rw [List.foldl_cons, ih]
    cases r with
    | blame r =>
      simp only [mapSet, List.mem_cons, Prod.mk.injEq, Rule.blame.injEq]
      constructor
      · rintro ((⟨rfl, rfl⟩ | h) | ⟨h, hk⟩)
        · exact Or.inr ⟨Or.inl rfl, rfl⟩
        · exact Or.inl h
        · exact Or.inr ⟨Or.inr h, hk⟩
      · rintro (h | ⟨rfl | h, hk⟩)
        · exact Or.inl (Or.inr h)
        · exact Or.inl (Or.inl ⟨hk.symm, rfl⟩)
        · exact Or.inr ⟨h, hk⟩
    | graph r => simp
    | other tag => simp

/-- The graph rules by unit ID hold exactly the graph rules of the list, each
under the ID of its unit. -/
theorem mem_collect_graph (existing : List Rule) (k : UnitID) (g : GraphUnitRule) :
    (k, g) ∈ (collectRules existing).1 ↔ Rule.graph g ∈ existing ∧ g.Unit.ID = k := by
  unfold collectRules
  rw [foldl_collect_graph]
  simp

/-- The blame rules by unit ID hold exactly the blame rules of the list, each
under the ID of its unit. -/
theorem mem_collect_blame (existing : List Rule) (k : UnitID) (b : BlameSourceUnitRule) :
    (k, b) ∈ (collectRules existing).2 ↔ Rule.blame b ∈ existing ∧ b.Unit.ID = k := by
  unfold collectRules
  rw [foldl_collect_blame]
  simp

theorem mem_graphIDs (k : UnitID) :
    ∀ existing : List Rule, k ∈ graphIDs existing ↔ ∃ g, Rule.graph g ∈ existing ∧ g.Unit.ID = k
  | [] => by simp [graphIDs]
  | .graph r :: rest => by
    have ih := mem_graphIDs k rest
    simp only [graphIDs, List.mem_cons, ih, Rule.graph.injEq]
    constructor
    · rintro (h | ⟨g, hg, hk⟩)
      · exact ⟨r, Or.inl rfl, h.symm⟩
      · exact ⟨g, Or.inr hg, hk⟩
    · rintro ⟨g, rfl | hg, hk⟩
      · exact Or.inl hk.symm
      · exact Or.inr ⟨g, hg, hk⟩
  | .blame r :: rest => by
    have ih := mem_graphIDs k rest
    simp [graphIDs, ih]
  | .other t :: rest => by
    have ih := mem_graphIDs k rest
    simp [graphIDs, ih]

theorem findUnit_eq_none (c : Repository) (k : UnitID) :
    findUnit c k = none ↔ ∀ u ∈ c.SourceUnits, u.ID ≠ k := by
  simp [findUnit, List.find?_eq_none]

theorem findUnit_some (c : Repository) (k : UnitID) (u : SourceUnit)
    (h : findUnit c k = some u) : u ∈ c.SourceUnits ∧ u.ID = k := by
  unfold findUnit at h
  exact ⟨List.mem_of_find?_eq_some h, by simpa using List.find?_some h⟩

/-- The second loop fails exactly when an entry has no source unit or no
blame rule. -/
theorem makeLoop_error_iff (c : Repository) (dataDir : List Char)
    (blameRules : GoMap BlameSourceUnitRule) :
    ∀ (order : List (UnitID × GraphUnitRule)) (rules : List ComputeUnitAuthorshipRule),
      (∃ e, makeLoop c dataDir blameRules order rules = .error e) ↔
        ∃ p ∈ order, findUnit c p.1 = none ∨ mapGet blameRules p.1 = none
  | [], rules => by
    constructor
    · rintro ⟨e, h⟩
      simp only [makeLoop, reduceCtorEq] at h
    · rintro ⟨p, hp, _⟩
      exact absurd hp (List.not_mem_nil _)
  | (k, gr) :: rest, rules => by
    cases hu : findUnit c k with
    | none =>
      simp only [makeLoop, hu]
      exact ⟨fun _ => ⟨(k, gr), List.mem_cons_self _ _, Or.inl hu⟩, fun _ => ⟨_, rfl⟩⟩
    | some u =>
      cases hb : mapGet blameRules k with
      | none =>
        simp only [makeLoop, hu, hb]
        exact ⟨fun _ => ⟨(k, gr), List.mem_cons_self _ _, Or.inr hb⟩, fun _ => ⟨_, rfl⟩⟩
      | some br =>
        simp only [makeLoop, hu, hb]
        rw [makeLoop_error_iff c dataDir blameRules rest]
        constructor
        · rintro ⟨p, hp, h⟩
          exact ⟨p, List.mem_cons_of_mem _ hp, h⟩
        · rintro ⟨p, hp, h⟩
          rcases List.mem_cons.mp hp with rfl | hp
          · rcases h with h | h
            · rw [hu] at h; cases h
            · rw [hb] at h; cases h
          · exact ⟨p, hp, h⟩

/-- The rules the second loop returns: the rules it began with, and one new
rule for each entry, in order, with the first source unit of the entry's ID,
the target of the blame rule under that ID and the target of the entry's
graph rule. -/
theorem makeLoop_ok (c : Repository) (dataDir : List Char)
    (blameRules : GoMap BlameSourceUnitRule) :
    ∀ (order : List (UnitID × GraphUnitRule)) (rules out : List ComputeUnitAuthorshipRule),
      makeLoop c dataDir blameRules order rules = .ok out →
      ∃ made, out = rules ++ made ∧ made.map (fun r => r.Unit.ID) = order.map Prod.fst ∧
        ∀ r ∈ made, r.dataDir = dataDir ∧ r.Unit ∈ c.SourceUnits ∧
          ∃ p ∈ order, p.1 = r.Unit.ID ∧ r.GraphOutput = p.2.Target ∧
            ∃ br, mapGet blameRules p.1 = some br ∧ r.BlameOutput = br.Target
  | [], rules, out, h => by
    simp only [makeLoop, Except.ok.injEq] at h
    exact ⟨[], by rw [h, List.append_nil], rfl, fun r hr => absurd hr (List.not_mem_nil _)⟩
  | (k, gr) :: rest, rules, out, h => by
    cases hu : findUnit c k with
    | none => simp [makeLoop, hu] at h
    | some u =>
      cases hb : mapGet blameRules k with
      | none => simp [makeLoop, hu, hb] at h
      | some br =>
        simp only [makeLoop, hu, hb] at h
        obtain ⟨made, hout, hids, hall⟩ := makeLoop_ok c dataDir blameRules rest _ out h
        obtain ⟨hmem, hid⟩ := findUnit_some c k u hu
        refine ⟨⟨dataDir, u, br.Target, gr.Target⟩ :: made, by simp [hout], by simp [hids, hid],
          ?_⟩
        intro r hr
        rcases List.mem_cons.mp hr with rfl | hr
        · exact ⟨rfl, hmem, (k, gr), List.mem_cons_self _ _, hid.symm, rfl, br, hb, rfl⟩
        · obtain ⟨h1, h2, p, hp, h3⟩ := hall r hr
          exact ⟨h1, h2, p, List.mem_cons_of_mem _ hp, h3⟩

/-! ## Authorship rules wait for both inputs (C19) -/

theorem mem_order_iff (existing : List Rule) (order : List (UnitID × GraphUnitRule))
    (horder : RangeOrder existing order) (k : UnitID) :
    k ∈ order.map Prod.fst ↔ ∃ g, Rule.graph g ∈ existing ∧ g.Unit.ID = k := by
  rw [(horder.map Prod.fst).mem_iff, mem_mapEntries_keys, List.mem_map]
  constructor
  · rintro ⟨p, hp, rfl⟩
    exact ⟨p.2, (mem_collect_graph existing p.1 p.2).mp hp⟩
  · rintro ⟨g, hg⟩
    exact ⟨(k, g), (mem_collect_graph existing k g).mpr hg, rfl⟩

theorem order_entry (existing : List Rule) (order : List (UnitID × GraphUnitRule))
    (horder : RangeOrder existing order) (p : UnitID × GraphUnitRule) (hp : p ∈ order) :
    Rule.graph p.2 ∈ existing ∧ p.2.Unit.ID = p.1 :=
  (mem_collect_graph existing p.1 p.2).mp (mapEntries_subset _ p (horder.mem_iff.mp hp))

/-- C19. Authorship rules wait for both inputs. In whatever order `range`
yields the graph rules, `makeAuthorshipRules` returns an error exactly when
some graph rule's unit ID has no source unit in the config or no blame rule
with the same unit ID; otherwise it returns one `ComputeUnitAuthorshipRule`
for each distinct unit ID of the graph rules, each with a source unit of the
config, and the `Prereqs()` of each is the list of the target of a blame rule
and the target of a graph rule, both of the rule's own unit ID. -/
theorem makeAuthorshipRules_waits (c : Repository) (dataDir : List Char)
    (existing : List Rule) (order : List (UnitID × GraphUnitRule))
    (horder : RangeOrder existing order) :
    ((∃ e, makeAuthorshipRules c dataDir existing order = .error e) ↔
      ∃ g, Rule.graph g ∈ existing ∧
        ((∀ u ∈ c.SourceUnits, u.ID ≠ g.Unit.ID) ∨
          (∀ b, Rule.blame b ∈ existing → b.Unit.ID ≠ g.Unit.ID))) ∧
    (∀ rules, makeAuthorshipRules c dataDir existing order = .ok rules →
      (rules.map (fun r => r.Unit.ID)).Perm (graphIDs existing).dedup ∧
      ∀ r ∈ rules, r.dataDir = dataDir ∧ r.Unit ∈ c.SourceUnits ∧
        ∃ g b, Rule.graph g ∈ existing ∧ Rule.blame b ∈ existing ∧
          g.Unit.ID = r.Unit.ID ∧ b.Unit.ID = r.Unit.ID ∧
          Prereqs r = [b.Target, g.Target]) := by
  constructor
  · unfold makeAuthorshipRules
    rw [makeLoop_error_iff]
    constructor
    · rintro ⟨p, hp, h⟩
      obtain ⟨hg, hk⟩ := order_entry existing order horder p hp
      refine ⟨p.2, hg, ?_⟩
      rw [hk]
      rcases h with h | h
      · exact Or.inl ((findUnit_eq_none c p.1).mp h)
      · refine Or.inr ?_
        intro b hb hbk
        exact (mapGet_eq_none p.1 _).mp h b ((mem_collect_blame existing p.1 b).mpr ⟨hb, hbk⟩)
    · rintro ⟨g, hg, h⟩
      obtain ⟨p, hp, hpk⟩ := List.mem_map.mp
        ((mem_order_iff existing order horder g.Unit.ID).mpr ⟨g, hg, rfl⟩)
      refine ⟨p, hp, ?_⟩
      rw [hpk]
      rcases h with h | h
      · exact Or.inl ((findUnit_eq_none c g.Unit.ID).mpr h)
      · refine Or.inr ((mapGet_eq_none g.Unit.ID _).mpr ?_)
        intro b hb
        obtain ⟨hb1, hb2⟩ := (mem_collect_blame existing g.Unit.ID b).mp hb
        exact h b hb1 hb2
  · intro rules hrules
    unfold makeAuthorshipRules at hrules
    obtain ⟨made, hout, hids, hall⟩ := makeLoop_ok c dataDir _ order [] rules hrules
    rw [List.nil_append] at hout
    subst hout
    constructor
    · rw [hids]
      have hnd : (order.map Prod.fst).Nodup :=
        ((horder.map Prod.fst).nodup_iff).mpr (mapEntries_nodup _)
      rw [List.perm_ext_iff_of_nodup hnd (List.nodup_dedup _)]
      intro k
      rw [mem_order_iff existing order horder, List.mem_dedup, mem_graphIDs]
    · intro r hr
      obtain ⟨h1, h2, p, hp, hpk, hgo, br, hbr, hbo⟩ := hall r hr
      obtain ⟨hg, hk⟩ := order_entry existing order horder p hp
      obtain ⟨hb1, hb2⟩ := (mem_collect_blame existing p.1 br).mp (mapGet_mem p.1 br _ hbr)
      refine ⟨h1, h2, p.2, br, hg, hb1, by rw [hk, hpk], by rw [hb2, hpk], ?_⟩
      simp only [Prereqs, hbo, hgo]

/-- C19, on the example rules and units, the entries taken in the order
of the latest assignment first: the rules for `a` and `b`, each waiting for
its blame target and its latest graph target. -/
theorem makeAuthorshipRules_waits_witness :
    (RangeOrder exRules (mapEntries (collectRules exRules).1) ∧
      (makeAuthorshipRules ⟨exUnits⟩ "data".data exRules
          (mapEntries (collectRules exRules).1)).map (fun rules => rules.map Prereqs)
        = .ok [["a.blame".data, "a.graph".data], ["b.blame".data, "b.graph".data]]) ∧
    ((∃ e, makeAuthorshipRules ⟨exUnits⟩ "data".data exRules
        (mapEntries (collectRules exRules).1) = .error e) ↔
      ∃ g, Rule.graph g ∈ exRules ∧
        ((∀ u ∈ (⟨exUnits⟩ : Repository).SourceUnits, u.ID ≠ g.Unit.ID) ∨
          (∀ b, Rule.blame b ∈ exRules → b.Unit.ID ≠ g.Unit.ID))) ∧
    (∀ rules, makeAuthorshipRules ⟨exUnits⟩ "data".data exRules
        (mapEntries (collectRules exRules).1) = .ok rules →
      (rules.map (fun r => r.Unit.ID)).Perm (graphIDs exRules).dedup ∧
      ∀ r ∈ rules, r.dataDir = "data".data ∧ r.Unit ∈ (⟨exUnits⟩ : Repository).SourceUnits ∧
        ∃ g b, Rule.graph g ∈ exRules ∧ Rule.blame b ∈ exRules ∧
          g.Unit.ID = r.Unit.ID ∧ b.Unit.ID = r.Unit.ID ∧
          Prereqs r = [b.Target, g.Target]) :=
  ⟨⟨List.Perm.refl _, rfl⟩,
    makeAuthorshipRules_waits ⟨exUnits⟩ "data".data exRules
      (mapEntries (collectRules exRules).1) (List.Perm.refl _)⟩

end authorship
